import Mathlib

/-! Arithmetic coding (`main.go`): embedding and verified properties.

A shallow embedding of the five functions of `main.go`
(`calculateProbabilities`, `getSegments`, `findBoundary`, `encodeString`,
`decodeString`) followed by theorems about them.

Modelling decisions.

* A finite `float64` is the rational it denotes.  Every arithmetic operation
  of the code (`+`, `-`, `*`, `/`, `float64(len(..))`) is the exact operation
  followed by a rounding function `fl`, the first argument of every function
  that computes.  `round64` is IEEE 754 binary64 rounding to nearest, ties to
  even, with gradual underflow; it is the arithmetic of the program.  Its
  binary exponent is found by counting digits (`exponent`, equal to
  `Int.log 2` by `exponent_eq_log`), so that concrete runs evaluate.  `exact`
  is the identity, arithmetic without rounding.  Comparisons are exact, as
  they are on finite floats.  The operations are rounded one by one (no fused
  multiply-add, as on amd64).  Infinities are not represented: no operation
  of a run on a text overflows, and the only division by zero, `1.0 / 0` on
  the empty text, yields a value that is never used.
* A Go `string` is a Lean `String`; `[]rune(s)` and `range s` are `s.data`,
  `string(r)` is `String.singleton r`, `len([]rune(s))` is `s.length`.
* `collator.CompareString` is a parameter `collator : String → String → Int`.
* `sort.Slice` is library code; it is a parameter `sortSlice` taking the
  element-level `less` function and the slice.  Its contract is stated by
  `PermutesSlice` and `SortsSlice`; `stableSort` is an executable instance.
* A Go `panic` is an `Except.error`; the unbounded `for` loop of
  `decodeString` is run with a fuel counter and reports `none` when the fuel
  runs out.
-/

set_option autoImplicit false

namespace ArithmeticCoding

/-! ## Data model -/

/-- Go `type Probability struct { symbol string; value float64 }`. -/
structure Probability where
  symbol : String
  value : ℚ
deriving DecidableEq

/-- Go `type Boundary struct { symbol string; bottom float64; top float64 }`. -/
structure Boundary where
  symbol : String
  bottom : ℚ
  top : ℚ
deriving DecidableEq

/-- The run-time panics the program can raise. -/
inductive Panic where
  | noBoundaryFound
  | indexOutOfRange
deriving DecidableEq

deriving instance DecidableEq for Except

/-! ## Arithmetic -/

/-- Arithmetic without rounding. -/
def exact (x : ℚ) : ℚ := x

/-- Rounding of a rational to the nearest integer, ties to the even one. -/
def roundHalfEven (x : ℚ) : ℤ :=
  if x - (⌊x⌋ : ℚ) < 1 / 2 then ⌊x⌋
  else if 1 / 2 < x - (⌊x⌋ : ℚ) then ⌊x⌋ + 1
  else if ⌊x⌋ % 2 = 0 then ⌊x⌋ else ⌊x⌋ + 1

/-- The number of binary digits of `n`, counted by halving at most `fuel`
times (`fuel = n` is always enough). -/
def bitsOf : ℕ → ℕ → ℕ
  | 0, _ => 0
  | fuel + 1, n => if n = 0 then 0 else bitsOf fuel (n / 2) + 1

/-- The binary exponent of a positive rational `x`: the `e` with
`2 ^ e ≤ x < 2 ^ (e + 1)`, found from the digit counts of numerator and
denominator. -/
def exponent (x : ℚ) : ℤ :=
  if (2 : ℚ) ^ ((bitsOf x.num.natAbs x.num.natAbs : ℤ) - (bitsOf x.den x.den : ℤ)) ≤ x then
    (bitsOf x.num.natAbs x.num.natAbs : ℤ) - (bitsOf x.den x.den : ℤ)
  else (bitsOf x.num.natAbs x.num.natAbs : ℤ) - (bitsOf x.den x.den : ℤ) - 1

/-- The binary64 quantum of a positive rational `x`: `2 ^ (e - 52)` where
`2 ^ e ≤ x < 2 ^ (e + 1)`, the exponent being held at `-1022` below the normal
range (gradual underflow). -/
def quantum (x : ℚ) : ℚ :=
  2 ^ (max (exponent x) (-1022) - 52)

/-- Binary64 rounding of a positive rational: the nearest multiple of its
quantum, ties to the even multiple. -/
def roundPos (x : ℚ) : ℚ :=
  (roundHalfEven (x / quantum x) : ℚ) * quantum x

/-- IEEE 754 binary64 rounding to nearest, ties to even, of a rational. -/
def round64 (x : ℚ) : ℚ :=
  if 0 < x then roundPos x else if x < 0 then -roundPos (-x) else 0

/-- What the theorems use of a rounding function: it fixes `0` and `1`, is
monotone and idempotent, and is within `η` of its argument on `[0, 2)`. -/
def Rounds (fl : ℚ → ℚ) (η : ℚ) : Prop :=
  fl 0 = 0 ∧ fl 1 = 1 ∧ (∀ x y, x ≤ y → fl x ≤ fl y) ∧ (∀ x, fl (fl x) = fl x) ∧
    (∀ x, 0 ≤ x → x < 2 → |fl x - x| ≤ η)

/-! ## The operations -/

/-- The `less` closure handed to `sort.Slice` in `calculateProbabilities`:
`collator.CompareString(string(a), string(b)) < 0`. -/
def lessBy (collator : String → String → Int) (a b : Char) : Bool :=
  decide (collator (String.singleton a) (String.singleton b) < 0)

/-- The first loop of `calculateProbabilities`: `addProb[rt] += oneSymbolLength`
for each rune, starting from the empty map (absent keys read as `0`). -/
def accumulate (fl : ℚ → ℚ) (oneSymbolLength : ℚ) (runedText : List Char) : Char → ℚ :=
  runedText.foldl
    (fun addProb rt => Function.update addProb rt (fl (addProb rt + oneSymbolLength)))
    (fun _ => 0)

/-- The second loop of `calculateProbabilities`: append the entry of each rune
unless `slices.Contains` already finds it in the output. -/
def emit (addProb : Char → ℚ) (runedText : List Char) : List Probability :=
  runedText.foldl (fun probabilities rt =>
    if (⟨String.singleton rt, addProb rt⟩ : Probability) ∈ probabilities then probabilities
    else probabilities ++ [⟨String.singleton rt, addProb rt⟩]) []

/-- Go `calculateProbabilities(textToEncode, collator)`. -/
def calculateProbabilities (fl : ℚ → ℚ)
    (sortSlice : (Char → Char → Bool) → List Char → List Char)
    (textToEncode : String) (collator : String → String → Int) : List Probability :=
  let runedText := textToEncode.data
  let oneSymbolLength : ℚ := fl (1 / fl (runedText.length : ℚ))
  let runedText := sortSlice (lessBy collator) runedText
  let addProb := accumulate fl oneSymbolLength runedText
  emit addProb runedText

/-- The loop of `getSegments`, from the state `(topBound, segments)`. -/
def segmentsLoop (fl : ℚ → ℚ) : List Probability → ℚ → List Boundary → List Boundary
  | [], _, segments => segments
  | p :: probs, topBound, segments =>
    let bottomBound := topBound
    let topBound := fl (p.value + bottomBound)
    segmentsLoop fl probs topBound (segments ++ [⟨p.symbol, bottomBound, topBound⟩])

/-- Go `getSegments(probs)`. -/
def getSegments (fl : ℚ → ℚ) (probs : List Probability) : List Boundary :=
  segmentsLoop fl probs 0 []

/-- Go `findBoundary(boundaries, s)`: the bounds of the first entry whose symbol
is `s`, and a panic when there is none. -/
def findBoundary : List Boundary → String → Except Panic (ℚ × ℚ)
  | [], _ => .error Panic.noBoundaryFound
  | v :: boundaries, s =>
    if v.symbol = s then .ok (v.bottom, v.top) else findBoundary boundaries s

/-- The loop of `encodeString`, from the state `(bot, top, boundaries)`. -/
def encodeLoop (fl : ℚ → ℚ) (segments : List Boundary) :
    List Char → ℚ → ℚ → List Boundary → Except Panic (List Boundary)
  | [], _, _, boundaries => .ok boundaries
  | c :: text, bot, top, boundaries =>
    let interval := fl (top - bot)
    let symbol := String.singleton c
    match findBoundary segments symbol with
    | .error e => .error e
    | .ok (segBot, segTop) =>
      let newBot := fl (bot + fl (interval * segBot))
      let top := fl (bot + fl (interval * segTop))
      let bot := newBot
      encodeLoop fl segments text bot top (boundaries ++ [⟨symbol, bot, top⟩])

/-- Go `encodeString(segments, textToEncode)`: the history and the bottom of its
last entry; indexing the last entry of an empty history panics. -/
def encodeString (fl : ℚ → ℚ) (segments : List Boundary) (textToEncode : String) :
    Except Panic (List Boundary × ℚ) :=
  match encodeLoop fl segments textToEncode.data 0 1 [] with
  | .error e => .error e
  | .ok boundaries =>
    match boundaries.getLast? with
    | none => .error Panic.indexOutOfRange
    | some b => .ok (boundaries, b.bottom)

/-- The inner `for _, s := range segments` of `decodeString` on the state
`(decodedString, currentInterval[0], currentInterval[1])`: the first segment
whose candidate range holds the value updates the state and breaks; when none
does the state is left as it was. -/
def decodeScan (fl : ℚ → ℚ) (encodedValue : ℚ) (decodedString : String) (lo hi : ℚ) :
    List Boundary → String × ℚ × ℚ
  | [] => (decodedString, lo, hi)
  | s :: segments =>
    let newLower := fl (lo + fl (fl (hi - lo) * s.bottom))
    let newUpper := fl (lo + fl (fl (hi - lo) * s.top))
    if newLower ≤ encodedValue ∧ newUpper > encodedValue then
      (decodedString ++ s.symbol, newLower, newUpper)
    else decodeScan fl encodedValue decodedString lo hi segments

/-- The outer loop of `decodeString`; `fuel` bounds the number of passes over
the table, and `none` means the bound was reached with the loop still running. -/
def decodeLoop (fl : ℚ → ℚ) (encodedValue : ℚ) (decodedLength : Int)
    (segments : List Boundary) : Nat → String → ℚ → ℚ → Option String
  | 0, decodedString, _, _ =>
    if (decodedString.length : Int) < decodedLength then none else some decodedString
  | fuel + 1, decodedString, lo, hi =>
    if (decodedString.length : Int) < decodedLength then
      let st := decodeScan fl encodedValue decodedString lo hi segments
      decodeLoop fl encodedValue decodedLength segments fuel st.1 st.2.1 st.2.2
    else some decodedString

/-- Go `decodeString(encodedValue, decodedLength, segments)`, run for at most
`fuel` passes of its outer loop. -/
def decodeString (fl : ℚ → ℚ) (fuel : Nat) (encodedValue : ℚ) (decodedLength : Int)
    (segments : List Boundary) : Option String :=
  decodeLoop fl encodedValue decodedLength segments fuel "" 0 1

/-! ## The contract of `sort.Slice` and an executable instance -/

/-- `sort.Slice` only swaps elements: its result is a permutation of the slice. -/
def PermutesSlice (sortSlice : (Char → Char → Bool) → List Char → List Char) : Prop :=
  ∀ less l, (sortSlice less l).Perm l

/-- For the given `less`, the result of `sort.Slice` has no element that is
`less` than an element before it. -/
def SortsSlice (sortSlice : (Char → Char → Bool) → List Char → List Char)
    (less : Char → Char → Bool) : Prop :=
  ∀ l, (sortSlice less l).Pairwise (fun a b => less b a = false)

/-- A stable insertion sort, the algorithm `sort.Slice` runs on short slices. -/
def stableSort (less : Char → Char → Bool) (l : List Char) : List Char :=
  l.insertionSort (fun a b => less b a = false)

/-- A comparator over strings by the code point of the first character. -/
def codePointCompare (a b : String) : Int :=
  match a.data, b.data with
  | [], [] => 0
  | [], _ :: _ => -1
  | _ :: _, [] => 1
  | x :: _, y :: _ => if x.toNat < y.toNat then -1 else if x.toNat = y.toNat then 0 else 1

/-- The comparator is a strict total order on single code points that never
reports two distinct symbols equal. -/
def StrictTotal (less : Char → Char → Bool) : Prop :=
  (∀ a, less a a = false) ∧ (∀ a b c, less a b = true → less b c = true → less a c = true) ∧
    (∀ a b, a ≠ b → less a b = true ∨ less b a = true)

/-! ## Notions used in the statements -/

/-- The distinct elements of a sequence in the order in which they first
appear: the head, then the first appearances of the rest without the head. -/
def firstAppearances : List Char → List Char
  | [] => []
  | x :: xs => x :: (firstAppearances xs).filter (fun y => y ≠ x)

/-- The value `addProb[rt] += one` reaches after `k` additions, from `s`. -/
def addTimes (fl : ℚ → ℚ) (one : ℚ) : ℕ → ℚ → ℚ
  | 0, s => s
  | k + 1, s => addTimes fl one k (fl (s + one))

/-- The value the code gives to a symbol with `k` occurrences in a text of
`n` code points: `fl (1 / fl n)` added `k` times to `0`. -/
def share (fl : ℚ → ℚ) (n k : ℕ) : ℚ :=
  addTimes fl (fl (1 / fl (n : ℚ))) k 0

/-- The running bound of `getSegments` after the given entries, from `t`:
the values added one by one in list order. -/
def runningSum (fl : ℚ → ℚ) : List Probability → ℚ → ℚ
  | [], t => t
  | p :: ps, t => runningSum fl ps (fl (p.value + t))

/-- The lower end of the candidate range of a segment bound `b` over the
current interval `(lo, hi)`, as `encodeString` and `decodeString` compute it. -/
def candidate (fl : ℚ → ℚ) (lo hi b : ℚ) : ℚ :=
  fl (lo + fl (fl (hi - lo) * b))

/-- The first segment, in table order, whose candidate range contains the
value: lower bound inclusive, upper bound exclusive. -/
def firstMatch (fl : ℚ → ℚ) (v lo hi : ℚ) (table : List Boundary) : Option Boundary :=
  table.find? (fun s =>
    decide (candidate fl lo hi s.bottom ≤ v ∧ v < candidate fl lo hi s.top))

/-- A table laid out left to right: no segment starts before an earlier one
ends, and every segment has `0 ≤ bottom ≤ top`. -/
def Ascending (table : List Boundary) : Prop :=
  table.Pairwise (fun a b => a.top ≤ b.bottom) ∧ ∀ s ∈ table, 0 ≤ s.bottom ∧ s.bottom ≤ s.top

/-- A value taken to six decimal places, rounding to the nearest. -/
def roundSix (q : ℚ) : ℚ :=
  ((Rat.floor (q * 1000000 + 1 / 2) : ℤ) : ℚ) / 1000000

/-- A value cut after six decimal places. -/
def truncSix (q : ℚ) : ℚ :=
  ((Rat.floor (q * 1000000) : ℤ) : ℚ) / 1000000

/-- A value taken to six decimal places, rounding up. -/
def ceilSix (q : ℚ) : ℚ :=
  ((-Rat.floor (-(q * 1000000)) : ℤ) : ℚ) / 1000000

/-- The entry emitted for a rune by the second loop of `calculateProbabilities`. -/
def entryOf (addProb : Char → ℚ) (rt : Char) : Probability :=
  ⟨String.singleton rt, addProb rt⟩

/-! ## Strings -/

theorem singleton_injective {a b : Char} (h : String.singleton a = String.singleton b) :
    a = b := by
  have h2 : (String.singleton a).data = (String.singleton b).data := by rw [h]
  simpa [String.singleton] using h2

theorem singleton_length (c : Char) : (String.singleton c).length = 1 := rfl

theorem entryOf_injective (addProb : Char → ℚ) {a b : Char}
    (h : entryOf addProb a = entryOf addProb b) : a = b :=
  singleton_injective (congrArg Probability.symbol h)

/-! ## The two loops of `calculateProbabilities` -/

theorem firstAppearances_mem (l : List Char) (c : Char) :
    c ∈ firstAppearances l ↔ c ∈ l := by
  induction l with
  | nil => simp [firstAppearances]
  | cons x xs ih =>
    by_cases h : c = x
    · simp [firstAppearances, h]
    · simp [firstAppearances, h, List.mem_filter, ih]

theorem firstAppearances_nodup (l : List Char) : (firstAppearances l).Nodup := by
  induction l with
  | nil => simp [firstAppearances]
  | cons x xs ih =>
    simp only [firstAppearances, List.nodup_cons]
    exact ⟨by simp [List.mem_filter], ih.filter _⟩

theorem firstAppearances_sublist (l : List Char) : (firstAppearances l).Sublist l := by
  induction l with
  | nil => simp [firstAppearances]
  | cons x xs ih =>
    simp only [firstAppearances]
    exact List.Sublist.cons₂ x ((List.filter_sublist _).trans ih)

theorem accumulate_foldl (fl : ℚ → ℚ) (one : ℚ) (l : List Char) (m : Char → ℚ) (c : Char) :
    l.foldl (fun addProb rt => Function.update addProb rt (fl (addProb rt + one))) m c
      = addTimes fl one (l.count c) (m c) := by
  induction l generalizing m with
  | nil => simp [addTimes]
  | cons x xs ih =>
    rw [List.foldl_cons, ih]
    by_cases h : c = x
    · subst h
      simp [List.count_cons_self, addTimes]
    · have h2 : ¬ x = c := fun e => h e.symm
      simp [Function.update_noteq h, List.count_cons, h, h2]

theorem accumulate_eq (fl : ℚ → ℚ) (one : ℚ) (l : List Char) (c : Char) :
    accumulate fl one l c = addTimes fl one (l.count c) 0 := by
  simp [accumulate, accumulate_foldl]

theorem addTimes_succ (fl : ℚ → ℚ) (one : ℚ) (k : ℕ) (s : ℚ) :
    addTimes fl one (k + 1) s = fl (addTimes fl one k s + one) := by
  induction k generalizing s with
  | zero => simp [addTimes]
  | succ j ih =>
    rw [addTimes, ih]
    rfl

theorem share_zero (fl : ℚ → ℚ) (n : ℕ) : share fl n 0 = 0 := rfl

theorem share_succ (fl : ℚ → ℚ) (n k : ℕ) :
    share fl n (k + 1) = fl (share fl n k + fl (1 / fl (n : ℚ))) :=
  addTimes_succ fl _ k 0

theorem emit_foldl (addProb : Char → ℚ) (l seen : List Char) :
    l.foldl (fun probabilities rt =>
        if (⟨String.singleton rt, addProb rt⟩ : Probability) ∈ probabilities then probabilities
        else probabilities ++ [⟨String.singleton rt, addProb rt⟩]) (seen.map (entryOf addProb))
      = seen.map (entryOf addProb)
        ++ ((firstAppearances l).filter (fun y => decide (y ∉ seen))).map (entryOf addProb) := by
  induction l generalizing seen with
  | nil => simp [firstAppearances]
  | cons x xs ih =>
    have hmem : (⟨String.singleton x, addProb x⟩ : Probability) ∈ seen.map (entryOf addProb)
        ↔ x ∈ seen := by
      constructor
      · intro h
        obtain ⟨y, hy, hxy⟩ := List.mem_map.1 h
        have : y = x := entryOf_injective addProb hxy
        exact this ▸ hy
      · intro h
        exact List.mem_map.2 ⟨x, h, rfl⟩
    rw [List.foldl_cons]
    by_cases hx : x ∈ seen
    · rw [if_pos (hmem.2 hx), ih seen]
      congr 2
      simp only [firstAppearances, List.filter_cons, hx, not_true_eq_false, decide_False,
        List.filter_filter]
      simp only [Bool.false_eq_true, if_false]
      apply List.filter_congr
      intro y _
      by_cases hy : y ∈ seen
      · simp [hy]
      · have : y ≠ x := fun e => hy (e ▸ hx)
        simp [hy, this]
    · rw [if_neg (fun h => hx (hmem.1 h))]
      have hs : seen.map (entryOf addProb) ++ [⟨String.singleton x, addProb x⟩]
          = (seen ++ [x]).map (entryOf addProb) := by simp [entryOf]
      rw [hs, ih (seen ++ [x])]
      simp only [firstAppearances, List.filter_cons, hx, not_false_eq_true, decide_True,
        if_true, List.map_append, List.map_cons, List.map_nil, List.append_assoc,
        List.singleton_append, List.filter_filter]
      congr 3
      apply List.filter_congr
      intro y _
      by_cases hy : y ∈ seen <;> by_cases hyx : y = x <;> simp [hy, hyx]

theorem emit_eq (addProb : Char → ℚ) (l : List Char) :
    emit addProb l = (firstAppearances l).map (entryOf addProb) := by
  have h := emit_foldl addProb l []
  simpa [emit] using h

theorem string_length_eq (T : String) : T.length = T.data.length := rfl

theorem data_ne_nil {T : String} (hT : T ≠ "") : T.data ≠ [] := by
  intro h
  apply hT
  apply String.ext
  simpa using h

theorem calculateProbabilities_eq (fl : ℚ → ℚ)
    (sortSlice : (Char → Char → Bool) → List Char → List Char)
    (T : String) (collator : String → String → Int) :
    calculateProbabilities fl sortSlice T collator
      = (firstAppearances (sortSlice (lessBy collator) T.data)).map
          (entryOf (fun c =>
            share fl T.data.length ((sortSlice (lessBy collator) T.data).count c))) := by
  unfold calculateProbabilities
  simp only [emit_eq]
  congr 1
  funext c
  simp only [entryOf, accumulate_eq, share]

theorem calculateProbabilities_eq_of_perm (fl : ℚ → ℚ)
    (sortSlice : (Char → Char → Bool) → List Char → List Char) (hperm : PermutesSlice sortSlice)
    (T : String) (collator : String → String → Int) :
    calculateProbabilities fl sortSlice T collator
      = (firstAppearances (sortSlice (lessBy collator) T.data)).map
          (entryOf (fun c => share fl T.data.length (T.data.count c))) := by
  rw [calculateProbabilities_eq]
  congr 2
  funext c
  simp only [entryOf, (hperm (lessBy collator) T.data).count_eq c]

theorem mem_calculateProbabilities (fl : ℚ → ℚ)
    (sortSlice : (Char → Char → Bool) → List Char → List Char) (hperm : PermutesSlice sortSlice)
    (T : String) (collator : String → String → Int) (p : Probability) :
    p ∈ calculateProbabilities fl sortSlice T collator
      ↔ ∃ c ∈ T.data, p = ⟨String.singleton c, share fl T.data.length (T.data.count c)⟩ := by
  rw [calculateProbabilities_eq_of_perm fl sortSlice hperm, List.mem_map]
  constructor
  · rintro ⟨c, hc, rfl⟩
    rw [firstAppearances_mem, (hperm _ _).mem_iff] at hc
    exact ⟨c, hc, rfl⟩
  · rintro ⟨c, hc, rfl⟩
    refine ⟨c, ?_, rfl⟩
    rw [firstAppearances_mem, (hperm _ _).mem_iff]
    exact hc

theorem sum_count_firstAppearances (l : List Char) :
    ((firstAppearances l).map (fun c => l.count c)).sum = l.length := by
  have hp : (firstAppearances l).Perm l.dedup := by
    rw [List.perm_ext_iff_of_nodup (firstAppearances_nodup l) (List.nodup_dedup l)]
    intro a
    rw [firstAppearances_mem, List.mem_dedup]
  rw [(hp.map _).sum_eq]
  exact List.sum_map_count_dedup_eq_length l

/-! ## The sorting contract: the executable instance satisfies it -/

theorem stableSort_permutes : PermutesSlice stableSort := by
  intro less l
  exact List.perm_insertionSort _ l

theorem stableSort_sorts (less : Char → Char → Bool) (h : StrictTotal less) :
    SortsSlice stableSort less := by
  obtain ⟨hirr, htrans, htri⟩ := h
  have hasym : ∀ a b, less a b = true → less b a = false := by
    intro a b hab
    by_contra hba
    have hba2 : less b a = true := by simpa using hba
    have := htrans a b a hab hba2
    rw [hirr a] at this
    exact Bool.false_ne_true this
  haveI : IsTotal Char (fun a b => less b a = false) := ⟨by
    intro a b
    by_cases hab : less b a = true
    · exact Or.inr (hasym b a hab)
    · exact Or.inl (by simpa using hab)⟩
  haveI : IsTrans Char (fun a b => less b a = false) := ⟨by
    intro a b c hab hbc
    show less c a = false
    by_contra hca
    have hca2 : less c a = true := by simpa using hca
    by_cases e1 : a = b
    · subst e1
      rw [hca2] at hbc
      exact Bool.noConfusion hbc
    · rcases htri a b e1 with h1 | h1
      · have := htrans c a b hca2 h1
        rw [this] at hbc
        exact Bool.noConfusion hbc
      · rw [h1] at hab
        exact Bool.noConfusion hab⟩
  intro l
  exact List.sorted_insertionSort (fun a b => less b a = false) l

theorem lessBy_codePointCompare (a b : Char) :
    lessBy codePointCompare a b = decide (a.toNat < b.toNat) := by
  simp only [lessBy, codePointCompare, String.singleton]
  by_cases h : a.toNat < b.toNat
  · simp [h]
  · by_cases h2 : a.toNat = b.toNat <;> simp [h, h2]

theorem codePointCompare_strictTotal : StrictTotal (lessBy codePointCompare) := by
  refine ⟨?_, ?_, ?_⟩
  · intro a
    simp [lessBy_codePointCompare]
  · intro a b c
    simp only [lessBy_codePointCompare, decide_eq_true_eq]
    exact fun h1 h2 => lt_trans h1 h2
  · intro a b hab
    simp only [lessBy_codePointCompare, decide_eq_true_eq]
    have : a.toNat ≠ b.toNat := by
      intro e
      apply hab
      apply Char.ext
      apply UInt32.ext
      exact e
    omega

theorem sorted_unique (less : Char → Char → Bool) (htot : StrictTotal less) (l m : List Char)
    (hp : l.Perm m) (hl : l.Pairwise (fun a b => less b a = false))
    (hm : m.Pairwise (fun a b => less b a = false)) : l = m := by
  haveI : IsAntisymm Char (fun a b => less b a = false) := ⟨by
    intro a b hab hba
    by_contra hne
    rcases htot.2.2 a b hne with h | h
    · rw [h] at hba
      exact Bool.noConfusion hba
    · rw [h] at hab
      exact Bool.noConfusion hab⟩
  exact List.eq_of_perm_of_sorted hp hl hm

theorem firstAppearances_increasing (less : Char → Char → Bool) (htot : StrictTotal less)
    (l : List Char) (hl : l.Pairwise (fun a b => less b a = false)) :
    (firstAppearances l).Pairwise (fun a b => less a b = true) := by
  have h1 : (firstAppearances l).Pairwise (fun a b => less b a = false) :=
    hl.sublist (firstAppearances_sublist l)
  have h2 : (firstAppearances l).Pairwise (fun a b => a ≠ b) := firstAppearances_nodup l
  refine (h1.and h2).imp ?_
  intro a b hab
  rcases htot.2.2 a b hab.2 with h | h
  · exact h
  · rw [h] at hab
    exact Bool.noConfusion hab.1

theorem sorted_AAB (less : Char → Char → Bool) (hAB : less 'A' 'B' = true) (l : List Char)
    (hp : l.Perm ['A', 'A', 'B']) (hs : l.Pairwise (fun a b => less b a = false)) :
    l = ['A', 'A', 'B'] := by
  have hB : 'B' ∈ l := hp.mem_iff.2 (by simp)
  obtain ⟨s, t, rfl⟩ := List.append_of_mem hB
  have h0 : (['A', 'A', 'B'] : List Char).Perm ('B' :: ['A', 'A']) :=
    (List.perm_append_comm : (['A', 'A'] ++ ['B']).Perm (['B'] ++ ['A', 'A']))
  have h1 : (s ++ t).Perm (List.replicate 2 'A') :=
    ((List.perm_middle.symm.trans hp).trans h0).cons_inv
  have h2 : s ++ t = List.replicate 2 'A' := List.perm_replicate.1 h1
  have h3 : ∀ a ∈ t, less a 'B' = false := by
    have := (List.pairwise_append.1 hs).2.1
    exact (List.pairwise_cons.1 this).1
  have ht : t = [] := by
    cases t with
    | nil => rfl
    | cons a t2 =>
      have ha : a ∈ List.replicate 2 'A' := by
        rw [← h2]
        simp
      have haA : a = 'A' := (List.mem_replicate.1 ha).2
      have := h3 a (List.mem_cons_self _ _)
      rw [haA, hAB] at this
      exact Bool.noConfusion this
  subst ht
  rw [List.append_nil] at h2
  rw [h2]
  rfl

/-! ## The loop of `getSegments` -/

theorem segmentsLoop_append (fl : ℚ → ℚ) (probs : List Probability) (t : ℚ)
    (acc : List Boundary) :
    segmentsLoop fl probs t acc = acc ++ segmentsLoop fl probs t [] := by
  induction probs generalizing t acc with
  | nil => simp [segmentsLoop]
  | cons p ps ih =>
    simp only [segmentsLoop]
    rw [ih _ (acc ++ _), ih _ ([] ++ _)]
    simp

theorem segmentsLoop_cons (fl : ℚ → ℚ) (p : Probability) (ps : List Probability) (t : ℚ) :
    segmentsLoop fl (p :: ps) t []
      = ⟨p.symbol, t, fl (p.value + t)⟩ :: segmentsLoop fl ps (fl (p.value + t)) [] := by
  simp only [segmentsLoop]
  rw [segmentsLoop_append]
  simp

theorem segmentsLoop_length (fl : ℚ → ℚ) (probs : List Probability) (t : ℚ) :
    (segmentsLoop fl probs t []).length = probs.length := by
  induction probs generalizing t with
  | nil => simp [segmentsLoop]
  | cons p ps ih => rw [segmentsLoop_cons, List.length_cons, ih, List.length_cons]

theorem segmentsLoop_getElem (fl : ℚ → ℚ) (probs : List Probability) (t : ℚ) (i : ℕ)
    (p : Probability) (h : probs[i]? = some p) :
    (segmentsLoop fl probs t [])[i]?
      = some ⟨p.symbol, runningSum fl (probs.take i) t,
          fl (p.value + runningSum fl (probs.take i) t)⟩ := by
  induction probs generalizing t i with
  | nil => simp at h
  | cons q qs ih =>
    rw [segmentsLoop_cons]
    cases i with
    | zero =>
      simp only [List.getElem?_cons_zero, Option.some.injEq] at h
      subst h
      simp [runningSum]
    | succ j =>
      simp only [List.getElem?_cons_succ] at h
      simp only [List.getElem?_cons_succ, ih _ j h, List.take_succ_cons, runningSum]

theorem runningSum_exact (probs : List Probability) (t : ℚ) :
    runningSum exact probs t = t + (probs.map Probability.value).sum := by
  induction probs generalizing t with
  | nil => simp [runningSum]
  | cons p ps ih =>
    rw [runningSum, ih]
    simp only [exact, List.map_cons, List.sum_cons]
    ring

theorem segmentsLoop_symbols (fl : ℚ → ℚ) (probs : List Probability) (t : ℚ) :
    (segmentsLoop fl probs t []).map Boundary.symbol = probs.map Probability.symbol := by
  induction probs generalizing t with
  | nil => simp [segmentsLoop]
  | cons q qs ih => rw [segmentsLoop_cons, List.map_cons, ih, List.map_cons]

theorem segmentsLoop_contiguous (fl : ℚ → ℚ) (probs : List Probability) (t : ℚ) (i : ℕ)
    (a b : Boundary) (ha : (segmentsLoop fl probs t [])[i]? = some a)
    (hb : (segmentsLoop fl probs t [])[i + 1]? = some b) : a.top = b.bottom := by
  induction probs generalizing t i with
  | nil => simp [segmentsLoop] at ha
  | cons p ps ih =>
    rw [segmentsLoop_cons] at ha hb
    simp only [List.getElem?_cons_succ] at hb
    cases i with
    | zero =>
      simp only [List.getElem?_cons_zero, Option.some.injEq] at ha
      subst ha
      cases ps with
      | nil => simp [segmentsLoop] at hb
      | cons q qs =>
        rw [segmentsLoop_cons] at hb
        simp only [List.getElem?_cons_zero, Option.some.injEq] at hb
        subst hb
        rfl
    | succ j =>
      simp only [List.getElem?_cons_succ] at ha
      exact ih _ j ha hb

theorem segmentsLoop_getLast (fl : ℚ → ℚ) (probs : List Probability) (t : ℚ)
    (hne : probs ≠ []) :
    ∃ last, (segmentsLoop fl probs t []).getLast? = some last ∧
      last.top = runningSum fl probs t := by
  induction probs generalizing t with
  | nil => exact absurd rfl hne
  | cons p ps ih =>
    rw [segmentsLoop_cons]
    cases ps with
    | nil =>
      exact ⟨⟨p.symbol, t, fl (p.value + t)⟩, by simp [segmentsLoop], by simp [runningSum]⟩
    | cons q qs =>
      obtain ⟨last, h1, h2⟩ := ih (fl (p.value + t)) (List.cons_ne_nil _ _)
      rw [segmentsLoop_cons] at h1
      rw [segmentsLoop_cons, List.getLast?_cons_cons]
      exact ⟨last, h1, by rw [h2]; rfl⟩

theorem table_covers (fl : ℚ → ℚ)
    (sortSlice : (Char → Char → Bool) → List Char → List Char) (hperm : PermutesSlice sortSlice)
    (T : String) (collator : String → String → Int) :
    ∀ c ∈ T.data, ∃ e ∈ getSegments fl (calculateProbabilities fl sortSlice T collator),
      e.symbol = String.singleton c := by
  intro c hc
  have h1 : String.singleton c
      ∈ (getSegments fl (calculateProbabilities fl sortSlice T collator)).map
          Boundary.symbol := by
    rw [getSegments, segmentsLoop_symbols, List.mem_map]
    exact ⟨_, (mem_calculateProbabilities fl sortSlice hperm T collator _).2 ⟨c, hc, rfl⟩, rfl⟩
  obtain ⟨e, he, hes⟩ := List.mem_map.1 h1
  exact ⟨e, he, hes⟩

/-! ## Table lookup -/

theorem findBoundary_ok_mem (table : List Boundary) (s : String) (sb st : ℚ)
    (h : findBoundary table s = .ok (sb, st)) :
    ∃ e ∈ table, e.symbol = s ∧ e.bottom = sb ∧ e.top = st := by
  induction table with
  | nil => simp [findBoundary] at h
  | cons v vs ih =>
    simp only [findBoundary] at h
    by_cases hv : v.symbol = s
    · rw [if_pos hv] at h
      simp only [Except.ok.injEq, Prod.mk.injEq] at h
      exact ⟨v, List.mem_cons_self _ _, hv, h.1, h.2⟩
    · rw [if_neg hv] at h
      obtain ⟨e, he, h3⟩ := ih h
      exact ⟨e, List.mem_cons_of_mem _ he, h3⟩

theorem findBoundary_of_mem (table : List Boundary) (s : String)
    (h : ∃ e ∈ table, e.symbol = s) : ∃ sb st, findBoundary table s = .ok (sb, st) := by
  induction table with
  | nil =>
    obtain ⟨e, he, _⟩ := h
    simp at he
  | cons v vs ih =>
    simp only [findBoundary]
    by_cases hv : v.symbol = s
    · rw [if_pos hv]
      exact ⟨_, _, rfl⟩
    · rw [if_neg hv]
      apply ih
      obtain ⟨e, he, hes⟩ := h
      rcases List.mem_cons.1 he with rfl | he2
      · exact absurd hes hv
      · exact ⟨e, he2, hes⟩

theorem findBoundary_eq_find (table : List Boundary) (s : String) :
    findBoundary table s
      = match table.find? (fun y => decide (y.symbol = s)) with
        | some x => .ok (x.bottom, x.top)
        | none => .error Panic.noBoundaryFound := by
  induction table with
  | nil => simp [findBoundary]
  | cons v vs ih =>
    simp only [findBoundary, List.find?_cons]
    by_cases hv : v.symbol = s
    · simp [hv]
    · rw [if_neg hv, ih]
      simp [hv]

theorem findBoundary_error_iff (table : List Boundary) (s : String) (e : Panic) :
    findBoundary table s = .error e
      ↔ e = Panic.noBoundaryFound ∧ ∀ x ∈ table, x.symbol ≠ s := by
  induction table with
  | nil =>
    simp only [findBoundary, Except.error.injEq, List.not_mem_nil, false_implies, implies_true,
      and_true]
    exact eq_comm
  | cons v vs ih =>
    simp only [findBoundary]
    by_cases hv : v.symbol = s
    · rw [if_pos hv]
      constructor
      · intro h
        exact absurd h (by simp)
      · rintro ⟨_, h⟩
        exact absurd hv (h v (List.mem_cons_self _ _))
    · rw [if_neg hv, ih]
      constructor
      · rintro ⟨h1, h2⟩
        refine ⟨h1, ?_⟩
        intro x hx
        rcases List.mem_cons.1 hx with rfl | hx2
        · exact hv
        · exact h2 x hx2
      · rintro ⟨h1, h2⟩
        exact ⟨h1, fun x hx => h2 x (List.mem_cons_of_mem _ hx)⟩

/-! ## The loop of `encodeString` -/

theorem encodeLoop_append (fl : ℚ → ℚ) (seg : List Boundary) (text : List Char) (bot top : ℚ)
    (acc : List Boundary) :
    encodeLoop fl seg text bot top acc
      = (encodeLoop fl seg text bot top []).map (fun h => acc ++ h) := by
  induction text generalizing bot top acc with
  | nil => simp [encodeLoop, Except.map]
  | cons c cs ih =>
    simp only [encodeLoop]
    cases hf : findBoundary seg (String.singleton c) with
    | error e => simp [Except.map]
    | ok r =>
      obtain ⟨sb, st⟩ := r
      simp only
      rw [ih _ _ (acc ++ _), ih _ _ ([] ++ _)]
      cases encodeLoop fl seg cs (fl (bot + fl (fl (top - bot) * sb)))
          (fl (bot + fl (fl (top - bot) * st))) [] with
      | error e => simp [Except.map]
      | ok h => simp [Except.map]

theorem encodeLoop_nil (fl : ℚ → ℚ) (seg : List Boundary) (bot top : ℚ) (h : List Boundary) :
    encodeLoop fl seg [] bot top [] = .ok h ↔ h = [] := by
  simp [encodeLoop, eq_comm]

theorem encodeLoop_cons (fl : ℚ → ℚ) (seg : List Boundary) (c : Char) (cs : List Char)
    (bot top : ℚ) (h : List Boundary) :
    encodeLoop fl seg (c :: cs) bot top [] = .ok h ↔
      ∃ sb st rest, findBoundary seg (String.singleton c) = .ok (sb, st) ∧
        encodeLoop fl seg cs (candidate fl bot top sb) (candidate fl bot top st) []
          = .ok rest ∧
        h = ⟨String.singleton c, candidate fl bot top sb, candidate fl bot top st⟩ :: rest := by
  simp only [encodeLoop, candidate]
  cases hf : findBoundary seg (String.singleton c) with
  | error e => simp
  | ok r =>
    obtain ⟨sb, st⟩ := r
    simp only
    rw [encodeLoop_append]
    constructor
    · intro e
      cases hr : encodeLoop fl seg cs (fl (bot + fl (fl (top - bot) * sb)))
          (fl (bot + fl (fl (top - bot) * st))) [] with
      | error x =>
        rw [hr] at e
        simp [Except.map] at e
      | ok rest =>
        rw [hr] at e
        simp only [Except.map, List.nil_append, Except.ok.injEq] at e
        exact ⟨sb, st, rest, rfl, hr, by simpa using e.symm⟩
    · rintro ⟨sb2, st2, rest2, h1, h2, h3⟩
      simp only [Except.ok.injEq, Prod.mk.injEq] at h1
      obtain ⟨rfl, rfl⟩ := h1
      rw [h2, h3]
      simp [Except.map]

theorem encodeLoop_total (fl : ℚ → ℚ) (seg : List Boundary) (text : List Char) (bot top : ℚ)
    (hcov : ∀ c ∈ text, ∃ e ∈ seg, e.symbol = String.singleton c) :
    ∃ h, encodeLoop fl seg text bot top [] = .ok h := by
  induction text generalizing bot top with
  | nil => exact ⟨[], (encodeLoop_nil fl seg bot top []).2 rfl⟩
  | cons c cs ih =>
    obtain ⟨sb, st, hf⟩ := findBoundary_of_mem seg _ (hcov c (List.mem_cons_self _ _))
    obtain ⟨rest, hrest⟩ := ih (candidate fl bot top sb) (candidate fl bot top st)
      (fun d hd => hcov d (List.mem_cons_of_mem _ hd))
    exact ⟨_, (encodeLoop_cons fl seg c cs bot top _).2 ⟨sb, st, rest, hf, hrest, rfl⟩⟩

theorem encodeLoop_length (fl : ℚ → ℚ) (seg : List Boundary) (text : List Char) (bot top : ℚ)
    (h : List Boundary) (hok : encodeLoop fl seg text bot top [] = .ok h) :
    h.length = text.length := by
  induction text generalizing bot top h with
  | nil =>
    rw [(encodeLoop_nil fl seg bot top h).1 hok]
    rfl
  | cons c cs ih =>
    obtain ⟨sb, st, rest, _, hrest, rfl⟩ := (encodeLoop_cons fl seg c cs bot top h).1 hok
    rw [List.length_cons, List.length_cons, ih _ _ rest hrest]

theorem encodeLoop_index (fl : ℚ → ℚ) (seg : List Boundary) (text : List Char) (bot top : ℚ)
    (h : List Boundary) (hok : encodeLoop fl seg text bot top [] = .ok h)
    (sym : String) (i : ℕ) (c : Char) (prev : Boundary)
    (hc : text[i]? = some c) (hprev : ((⟨sym, bot, top⟩ : Boundary) :: h)[i]? = some prev) :
    ∃ sb st, findBoundary seg (String.singleton c) = .ok (sb, st) ∧
      h[i]? = some ⟨String.singleton c, candidate fl prev.bottom prev.top sb,
        candidate fl prev.bottom prev.top st⟩ := by
  induction text generalizing bot top h sym i with
  | nil => simp at hc
  | cons d ds ih =>
    obtain ⟨sb, st, rest, hf, hrest, rfl⟩ := (encodeLoop_cons fl seg d ds bot top h).1 hok
    cases i with
    | zero =>
      simp only [List.getElem?_cons_zero, Option.some.injEq] at hc hprev
      subst hc
      subst hprev
      exact ⟨sb, st, hf, by simp⟩
    | succ j =>
      simp only [List.getElem?_cons_succ] at hc hprev
      simp only [List.getElem?_cons_succ]
      exact ih _ _ rest hrest _ j hc hprev

theorem encodeString_eq (fl : ℚ → ℚ) (seg : List Boundary) (T : String) (h : List Boundary)
    (b : Boundary) (hok : encodeLoop fl seg T.data 0 1 [] = .ok h) (hb : h.getLast? = some b) :
    encodeString fl seg T = .ok (h, b.bottom) := by
  simp only [encodeString, hok, hb]

theorem encodeLoop_error_iff (fl : ℚ → ℚ) (seg : List Boundary) (text : List Char)
    (bot top : ℚ) (e : Panic) :
    encodeLoop fl seg text bot top [] = .error e
      ↔ e = Panic.noBoundaryFound ∧
        ∃ c ∈ text, ∀ x ∈ seg, x.symbol ≠ String.singleton c := by
  induction text generalizing bot top with
  | nil => simp [encodeLoop]
  | cons c cs ih =>
    simp only [encodeLoop]
    cases hf : findBoundary seg (String.singleton c) with
    | error e2 =>
      obtain ⟨h1, h2⟩ := (findBoundary_error_iff seg _ e2).1 hf
      simp only [Except.error.injEq]
      constructor
      · intro h
        exact ⟨h ▸ h1, c, List.mem_cons_self _ _, h2⟩
      · rintro ⟨h, _⟩
        rw [h, h1]
    | ok r =>
      obtain ⟨sb, st⟩ := r
      obtain ⟨x0, hx0, hx0s, _, _⟩ := findBoundary_ok_mem seg _ sb st hf
      simp only
      rw [encodeLoop_append]
      have hmap : ∀ (X : Except Panic (List Boundary)) (f : List Boundary → List Boundary),
          Except.map f X = .error e ↔ X = .error e := by
        intro X f
        cases X <;> simp [Except.map]
      rw [hmap, ih]
      constructor
      · rintro ⟨h1, d, hd, h2⟩
        exact ⟨h1, d, List.mem_cons_of_mem _ hd, h2⟩
      · rintro ⟨h1, d, hd, h2⟩
        refine ⟨h1, d, ?_, h2⟩
        rcases List.mem_cons.1 hd with rfl | hd2
        · exact absurd hx0s (h2 x0 hx0)
        · exact hd2

theorem encodeString_error_iff (fl : ℚ → ℚ) (seg : List Boundary) (T : String) (hT : T ≠ "")
    (e : Panic) :
    encodeString fl seg T = .error e ↔ encodeLoop fl seg T.data 0 1 [] = .error e := by
  simp only [encodeString]
  cases hl : encodeLoop fl seg T.data 0 1 [] with
  | error e2 => simp
  | ok h =>
    have hlen := encodeLoop_length _ _ _ _ _ h hl
    cases h with
    | nil => exact absurd (List.length_eq_zero.1 hlen.symm) (data_ne_nil hT)
    | cons b bs =>
      have : (b :: bs).getLast? = some ((b :: bs).getLast (List.cons_ne_nil _ _)) :=
        List.getLast?_eq_getLast _ _
      simp only [this]
      simp

theorem encodeString_ok (fl : ℚ → ℚ) (seg : List Boundary) (T : String) (hT : T ≠ "")
    (hcov : ∀ c ∈ T.data, ∃ e ∈ seg, e.symbol = String.singleton c) :
    ∃ h b, encodeLoop fl seg T.data 0 1 [] = .ok h ∧ h.getLast? = some b ∧
      h.getLastD ⟨"", 0, 1⟩ = b ∧ encodeString fl seg T = .ok (h, b.bottom) := by
  obtain ⟨h, hok⟩ := encodeLoop_total fl seg T.data 0 1 hcov
  have hlen := encodeLoop_length _ _ _ _ _ h hok
  have hne : h ≠ [] := by
    intro e
    rw [e] at hlen
    exact data_ne_nil hT (List.length_eq_zero.1 hlen.symm)
  obtain ⟨b, hb⟩ : ∃ b, h.getLast? = some b :=
    ⟨_, List.getLast?_eq_getLast h hne⟩
  have hD : h.getLastD ⟨"", 0, 1⟩ = b := by
    rw [List.getLastD_eq_getLast?, hb]
    rfl
  exact ⟨h, b, hok, hb, hD, encodeString_eq fl seg T h b hok hb⟩

/-! ## One pass of the decoder -/

theorem decodeScan_eq (fl : ℚ → ℚ) (v : ℚ) (out : String) (lo hi : ℚ)
    (table : List Boundary) :
    decodeScan fl v out lo hi table
      = match firstMatch fl v lo hi table with
        | some s => (out ++ s.symbol, candidate fl lo hi s.bottom, candidate fl lo hi s.top)
        | none => (out, lo, hi) := by
  induction table with
  | nil => simp [decodeScan, firstMatch]
  | cons s rest ih =>
    simp only [decodeScan, firstMatch, List.find?_cons, candidate]
    by_cases hs : fl (lo + fl (fl (hi - lo) * s.bottom)) ≤ v
        ∧ v < fl (lo + fl (fl (hi - lo) * s.top))
    · have hs2 : fl (lo + fl (fl (hi - lo) * s.bottom)) ≤ v
          ∧ fl (lo + fl (fl (hi - lo) * s.top)) > v := hs
      rw [if_pos hs2]
      simp [hs]
    · have hs2 : ¬ (fl (lo + fl (fl (hi - lo) * s.bottom)) ≤ v
          ∧ fl (lo + fl (fl (hi - lo) * s.top)) > v) := hs
      rw [if_neg hs2, ih]
      simp [hs, firstMatch, candidate]

theorem decodeLoop_stuck (fl : ℚ → ℚ) (v : ℚ) (n : Int) (table : List Boundary)
    (out : String) (lo hi : ℚ) (hlt : (out.length : Int) < n)
    (hno : firstMatch fl v lo hi table = none) (fuel : ℕ) :
    decodeLoop fl v n table fuel out lo hi = none := by
  induction fuel with
  | zero => simp only [decodeLoop, if_pos hlt]
  | succ f ih =>
    simp only [decodeLoop, if_pos hlt, decodeScan_eq, hno]
    exact ih

theorem decodeLoop_trace (fl : ℚ → ℚ) (v : ℚ) (n : Int) (table : List Boundary) (fuel : ℕ)
    (out : String) (lo hi : ℚ) (sym res : String)
    (h : decodeLoop fl v n table fuel out lo hi = some res) :
    ∃ sel : List Boundary,
      res = sel.foldl (fun acc b => acc ++ b.symbol) out ∧
      List.Chain (fun prev cur : Boundary =>
          ∃ s, firstMatch fl v prev.bottom prev.top table = some s ∧
            cur = ⟨s.symbol, candidate fl prev.bottom prev.top s.bottom,
              candidate fl prev.bottom prev.top s.top⟩)
        ⟨sym, lo, hi⟩ sel := by
  induction fuel generalizing out lo hi sym with
  | zero =>
    by_cases hlt : (out.length : Int) < n
    · simp [decodeLoop, hlt] at h
    · simp only [decodeLoop, if_neg hlt, Option.some.injEq] at h
      exact ⟨[], by simp [h], List.Chain.nil⟩
  | succ f ih =>
    by_cases hlt : (out.length : Int) < n
    · simp only [decodeLoop, if_pos hlt, decodeScan_eq] at h
      cases hm : firstMatch fl v lo hi table with
      | none =>
        rw [hm] at h
        simp only at h
        rw [decodeLoop_stuck fl v n table out lo hi hlt hm f] at h
        exact absurd h (by simp)
      | some s =>
        rw [hm] at h
        simp only at h
        obtain ⟨sel, h1, h2⟩ := ih _ _ _ s.symbol h
        refine ⟨⟨s.symbol, candidate fl lo hi s.bottom, candidate fl lo hi s.top⟩ :: sel,
          ?_, ?_⟩
        · simpa using h1
        · exact List.Chain.cons ⟨s, hm, rfl⟩ h2
    · simp only [decodeLoop, if_neg hlt, Option.some.injEq] at h
      exact ⟨[], by simp [h], List.Chain.nil⟩

/-! ## Rounding to binary64 -/

theorem roundHalfEven_floor_le (x : ℚ) : ⌊x⌋ ≤ roundHalfEven x := by
  unfold roundHalfEven
  split_ifs <;> omega

theorem roundHalfEven_le_floor_succ (x : ℚ) : roundHalfEven x ≤ ⌊x⌋ + 1 := by
  unfold roundHalfEven
  split_ifs <;> omega

theorem roundHalfEven_intCast (n : ℤ) : roundHalfEven (n : ℚ) = n := by
  unfold roundHalfEven
  simp

theorem roundHalfEven_abs (x : ℚ) : |(roundHalfEven x : ℚ) - x| ≤ 1 / 2 := by
  have h1 := Int.floor_le x
  have h2 := Int.lt_floor_add_one x
  unfold roundHalfEven
  rw [abs_le]
  split_ifs with ha hb hc
  · constructor <;> linarith
  · push_cast
    constructor <;> linarith
  · constructor <;> linarith
  · push_cast
    constructor <;> linarith

theorem roundHalfEven_ge (x : ℚ) (n : ℤ) (h : (n : ℚ) ≤ x) : n ≤ roundHalfEven x :=
  le_trans (Int.le_floor.2 h) (roundHalfEven_floor_le x)

theorem roundHalfEven_le (x : ℚ) (n : ℤ) (h : x ≤ (n : ℚ)) : roundHalfEven x ≤ n := by
  by_cases hlt : ⌊x⌋ + 1 ≤ n
  · exact le_trans (roundHalfEven_le_floor_succ x) hlt
  · have h1 : n ≤ ⌊x⌋ := by omega
    have h2 : (n : ℚ) ≤ x := le_trans (by exact_mod_cast h1) (Int.floor_le x)
    have h3 : x = (n : ℚ) := le_antisymm h h2
    rw [h3, roundHalfEven_intCast]

theorem roundHalfEven_mono (x y : ℚ) (h : x ≤ y) : roundHalfEven x ≤ roundHalfEven y := by
  have hf : ⌊x⌋ ≤ ⌊y⌋ := Int.floor_mono h
  by_cases hlt : ⌊x⌋ < ⌊y⌋
  · exact le_trans (roundHalfEven_le_floor_succ x) (le_trans hlt (roundHalfEven_floor_le y))
  · have he : ⌊x⌋ = ⌊y⌋ := le_antisymm hf (not_lt.1 hlt)
    unfold roundHalfEven
    rw [he]
    split_ifs <;> first | omega | (exfalso; linarith)

/-! ## The binary exponent -/

theorem bitsOf_zero (fuel : ℕ) : bitsOf fuel 0 = 0 := by
  cases fuel <;> simp [bitsOf]

theorem bitsOf_spec (fuel n : ℕ) (h : n ≤ fuel) :
    n < 2 ^ bitsOf fuel n ∧ (0 < n → 2 ^ bitsOf fuel n ≤ 2 * n) := by
  induction fuel generalizing n with
  | zero =>
    have : n = 0 := by omega
    subst this
    simp [bitsOf]
  | succ f ih =>
    by_cases hn : n = 0
    · subst hn
      simp [bitsOf]
    · have hle : n / 2 ≤ f := by omega
      obtain ⟨h1, h2⟩ := ih (n / 2) hle
      simp only [bitsOf, if_neg hn]
      constructor
      · rw [pow_succ]
        omega
      · intro _
        rw [pow_succ]
        by_cases h0 : n / 2 = 0
        · rw [h0, bitsOf_zero]
          omega
        · have := h2 (by omega)
          omega

theorem exponent_aux (x : ℚ) (hx : 0 < x) (p q a b : ℕ) (E : ℤ) (hE : E = (a : ℤ) - (b : ℤ))
    (hq : 0 < q) (hxeq : x = (p : ℚ) / (q : ℚ))
    (a1 : p < 2 ^ a) (a2 : 2 ^ a ≤ 2 * p) (b1 : q < 2 ^ b) (b2 : 2 ^ b ≤ 2 * q) :
    (if (2 : ℚ) ^ E ≤ x then E else E - 1) = Int.log 2 x := by
  have hqQ : (0 : ℚ) < (q : ℚ) := by exact_mod_cast hq
  have A1 : (p : ℚ) < 2 ^ a := by exact_mod_cast a1
  have A2 : (2 : ℚ) ^ a ≤ 2 * (p : ℚ) := by exact_mod_cast a2
  have B1 : (q : ℚ) < 2 ^ b := by exact_mod_cast b1
  have B2 : (2 : ℚ) ^ b ≤ 2 * (q : ℚ) := by exact_mod_cast b2
  have hpa : (0 : ℚ) < 2 ^ a := by positivity
  have hpb : (0 : ℚ) < 2 ^ b := by positivity
  have hp0 : (0 : ℚ) ≤ (p : ℚ) := by exact_mod_cast Nat.zero_le p
  have hEq : (2 : ℚ) ^ E = 2 ^ a / 2 ^ b := by
    rw [hE, zpow_sub₀ (by norm_num : (2 : ℚ) ≠ 0), zpow_natCast, zpow_natCast]
  have hlow : (2 : ℚ) ^ (E - 1) ≤ x := by
    rw [zpow_sub₀ (by norm_num : (2 : ℚ) ≠ 0), hEq, zpow_one, hxeq, div_div,
      div_le_div_iff₀ (by positivity) hqQ]
    nlinarith
  have hhigh : x < (2 : ℚ) ^ (E + 1) := by
    rw [zpow_add₀ (by norm_num : (2 : ℚ) ≠ 0), hEq, zpow_one, hxeq, div_mul_eq_mul_div,
      div_lt_div_iff₀ hqQ hpb]
    nlinarith
  have L1 : ∀ k : ℤ, (2 : ℚ) ^ k ≤ x → k ≤ Int.log 2 x := fun k hk =>
    (Int.zpow_le_iff_le_log (b := 2) (by norm_num) hx).1 (by simpa using hk)
  have L2 : ∀ k : ℤ, x < (2 : ℚ) ^ k → Int.log 2 x < k := fun k hk =>
    (Int.lt_zpow_iff_log_lt (b := 2) (by norm_num) hx).1 (by simpa using hk)
  split_ifs with hc
  · have h1 := L1 E hc
    have h2 := L2 (E + 1) hhigh
    omega
  · have h1 := L1 (E - 1) hlow
    have h2 := L2 E (not_le.1 hc)
    omega

theorem exponent_eq_log (x : ℚ) (hx : 0 < x) : exponent x = Int.log 2 x := by
  have hnum : 0 < x.num := Rat.num_pos.2 hx
  have hp : 0 < x.num.natAbs := Int.natAbs_pos.2 (ne_of_gt hnum)
  obtain ⟨a1, a2⟩ := bitsOf_spec x.num.natAbs x.num.natAbs (le_refl _)
  obtain ⟨b1, b2⟩ := bitsOf_spec x.den x.den (le_refl _)
  have hxeq : x = (x.num.natAbs : ℚ) / (x.den : ℚ) := by
    have h1 : ((x.num.natAbs : ℕ) : ℚ) = (x.num : ℚ) := by
      rw [Nat.cast_natAbs, abs_of_pos hnum]
    rw [h1]
    exact (Rat.num_div_den x).symm
  exact exponent_aux x hx x.num.natAbs x.den _ _ _ rfl x.den_pos hxeq a1 (a2 hp) b1
    (b2 x.den_pos)

theorem quantum_eq (x : ℚ) (hx : 0 < x) :
    quantum x = 2 ^ (max (Int.log 2 x) (-1022) - 52) := by
  unfold quantum
  rw [exponent_eq_log x hx]

theorem two_zpow_pos (k : ℤ) : (0 : ℚ) < 2 ^ k := zpow_pos (by norm_num) k

theorem two_zpow_le {a b : ℤ} (h : a ≤ b) : (2 : ℚ) ^ a ≤ 2 ^ b :=
  zpow_le_zpow_right₀ (by norm_num) h

theorem quantum_pos (x : ℚ) : 0 < quantum x := two_zpow_pos _

theorem log_le_self (x : ℚ) (hx : 0 < x) : (2 : ℚ) ^ (Int.log 2 x) ≤ x := by
  have := Int.zpow_log_le_self (b := 2) (r := x) (by norm_num) hx
  simpa using this

theorem self_lt_log_succ (x : ℚ) : x < (2 : ℚ) ^ (Int.log 2 x + 1) := by
  have := Int.lt_zpow_succ_log_self (b := 2) (by norm_num) x
  simpa using this

theorem log_lt_of_lt (x : ℚ) (hx : 0 < x) (k : ℤ) (h : x < (2 : ℚ) ^ k) : Int.log 2 x < k := by
  have := (Int.lt_zpow_iff_log_lt (b := 2) (by norm_num) (x := k) hx).1 (by simpa using h)
  exact this

theorem roundPos_abs (x : ℚ) : |roundPos x - x| ≤ quantum x / 2 := by
  have hq := quantum_pos x
  have h := roundHalfEven_abs (x / quantum x)
  have e : roundPos x - x = ((roundHalfEven (x / quantum x) : ℚ) - x / quantum x) * quantum x := by
    unfold roundPos
    field_simp
  rw [e, abs_mul, abs_of_pos hq]
  calc |(roundHalfEven (x / quantum x) : ℚ) - x / quantum x| * quantum x
      ≤ 1 / 2 * quantum x := mul_le_mul_of_nonneg_right h (le_of_lt hq)
    _ = quantum x / 2 := by ring

theorem quantum_le_of_lt_two (x : ℚ) (hx : 0 < x) (h2 : x < 2) :
    quantum x ≤ 2 ^ (-52 : ℤ) := by
  have h : Int.log 2 x < 1 := log_lt_of_lt x hx 1 (by simpa using h2)
  rw [quantum_eq x hx]
  apply two_zpow_le
  have : max (Int.log 2 x) (-1022) ≤ 0 := max_le (by omega) (by norm_num)
  omega

theorem roundPos_error (x : ℚ) (hx : 0 < x) (h2 : x < 2) :
    |roundPos x - x| ≤ 1 / 2 ^ 53 := by
  have h := roundPos_abs x
  have hq := quantum_le_of_lt_two x hx h2
  have e : (2 : ℚ) ^ (-52 : ℤ) / 2 = 1 / 2 ^ 53 := by norm_num
  calc |roundPos x - x| ≤ quantum x / 2 := h
    _ ≤ 2 ^ (-52 : ℤ) / 2 := (div_le_div_iff_of_pos_right (by norm_num : (0 : ℚ) < 2)).2 hq
    _ = 1 / 2 ^ 53 := e

theorem roundPos_nonneg (x : ℚ) (hx : 0 < x) : 0 ≤ roundPos x := by
  have hq := quantum_pos x
  have h0 : (0 : ℤ) ≤ roundHalfEven (x / quantum x) :=
    roundHalfEven_ge _ 0 (by
      have : 0 ≤ x / quantum x := div_nonneg (le_of_lt hx) (le_of_lt hq)
      simpa using this)
  unfold roundPos
  exact mul_nonneg (by exact_mod_cast h0) (le_of_lt hq)

theorem roundPos_of_int_quot (x : ℚ) (n : ℤ) (h : x / quantum x = (n : ℚ)) :
    roundPos x = x := by
  unfold roundPos
  rw [h, roundHalfEven_intCast, ← h]
  exact div_mul_cancel₀ x (ne_of_gt (quantum_pos x))

/-- A positive multiple `k * 2 ^ j` of a power of two with `k < 2 ^ 53` and
`j ≥ -1074` is a binary64 number: rounding leaves it unchanged. -/
theorem roundPos_representable (k : ℕ) (j : ℤ) (hk0 : 0 < k) (hk : k < 2 ^ 53)
    (hj : -1074 ≤ j) : roundPos ((k : ℚ) * 2 ^ j) = (k : ℚ) * 2 ^ j := by
  have hx : (0 : ℚ) < (k : ℚ) * 2 ^ j :=
    mul_pos (by exact_mod_cast hk0) (two_zpow_pos j)
  have hlt : (k : ℚ) * 2 ^ j < 2 ^ (j + 53) := by
    have h1 : (k : ℚ) < 2 ^ (53 : ℤ) := by
      have h53 : (2 : ℚ) ^ (53 : ℤ) = ((2 ^ 53 : ℕ) : ℚ) := by norm_num
      rw [h53]
      exact_mod_cast hk
    rw [zpow_add₀ (by norm_num : (2 : ℚ) ≠ 0), mul_comm ((2 : ℚ) ^ j)]
    exact mul_lt_mul_of_pos_right h1 (two_zpow_pos j)
  have hlog : Int.log 2 ((k : ℚ) * 2 ^ j) < j + 53 := log_lt_of_lt _ hx _ hlt
  have hq : max (Int.log 2 ((k : ℚ) * 2 ^ j)) (-1022) - 52 ≤ j := by
    have : max (Int.log 2 ((k : ℚ) * 2 ^ j)) (-1022) ≤ j + 52 := max_le (by omega) (by omega)
    omega
  obtain ⟨d, hd⟩ : ∃ d : ℕ, j = max (Int.log 2 ((k : ℚ) * 2 ^ j)) (-1022) - 52 + d :=
    ⟨(j - (max (Int.log 2 ((k : ℚ) * 2 ^ j)) (-1022) - 52)).toNat, by omega⟩
  have hquot : (k : ℚ) * 2 ^ j / quantum ((k : ℚ) * 2 ^ j) = ((k * 2 ^ d : ℕ) : ℤ) := by
    rw [quantum_eq _ hx]
    have hne : (2 : ℚ) ^ (max (Int.log 2 ((k : ℚ) * 2 ^ j)) (-1022) - 52) ≠ 0 :=
      ne_of_gt (two_zpow_pos _)
    rw [div_eq_iff hne]
    nth_rewrite 1 [hd]
    rw [zpow_add₀ (by norm_num : (2 : ℚ) ≠ 0), zpow_natCast]
    push_cast
    ring
  exact roundPos_of_int_quot _ _ hquot

theorem quantum_mul (x : ℚ) (hx : 0 < x) (k : ℤ) :
    (2 : ℚ) ^ k * quantum x = 2 ^ (max (Int.log 2 x) (-1022) + (k - 52)) := by
  rw [quantum_eq x hx]
  rw [← zpow_add₀ (by norm_num : (2 : ℚ) ≠ 0)]
  congr 1
  ring

theorem roundPos_le_pow (x : ℚ) (hx0 : 0 < x) :
    roundPos x ≤ 2 ^ (max (Int.log 2 x) (-1022) + 1) := by
  have hq := quantum_pos x
  have hx : x < 2 ^ (max (Int.log 2 x) (-1022) + 1) :=
    lt_of_lt_of_le (self_lt_log_succ x) (two_zpow_le (by
      have := le_max_left (Int.log 2 x) (-1022)
      omega))
  have h53 : x / quantum x ≤ ((2 ^ 53 : ℕ) : ℤ) := by
    rw [div_le_iff₀ hq]
    have e := quantum_mul x hx0 53
    have e2 : (((2 ^ 53 : ℕ) : ℤ) : ℚ) = (2 : ℚ) ^ (53 : ℤ) := by norm_num
    rw [e2, e]
    have e3 : max (Int.log 2 x) (-1022) + (53 - 52) = max (Int.log 2 x) (-1022) + 1 := by ring
    rw [e3]
    exact le_of_lt hx
  have hm := roundHalfEven_le _ _ h53
  have hm2 : (roundHalfEven (x / quantum x) : ℚ) ≤ (2 : ℚ) ^ (53 : ℤ) := by
    have : ((roundHalfEven (x / quantum x) : ℤ) : ℚ) ≤ (((2 ^ 53 : ℕ) : ℤ) : ℚ) := by
      exact_mod_cast hm
    have e2 : (((2 ^ 53 : ℕ) : ℤ) : ℚ) = (2 : ℚ) ^ (53 : ℤ) := by norm_num
    rw [e2] at this
    exact this
  unfold roundPos
  calc (roundHalfEven (x / quantum x) : ℚ) * quantum x
      ≤ 2 ^ (53 : ℤ) * quantum x := mul_le_mul_of_nonneg_right hm2 (le_of_lt hq)
    _ = 2 ^ (max (Int.log 2 x) (-1022) + 1) := by
      rw [quantum_mul x hx0]
      congr 1

theorem roundPos_ge_pow (y : ℚ) (hy : 0 < y) (hn : -1022 ≤ Int.log 2 y) :
    (2 : ℚ) ^ (Int.log 2 y) ≤ roundPos y := by
  have hq := quantum_pos y
  have hmax : max (Int.log 2 y) (-1022) = Int.log 2 y := max_eq_left hn
  have h52 : (((2 ^ 52 : ℕ) : ℤ) : ℚ) ≤ y / quantum y := by
    rw [le_div_iff₀ hq]
    have e := quantum_mul y hy 52
    have e2 : (((2 ^ 52 : ℕ) : ℤ) : ℚ) = (2 : ℚ) ^ (52 : ℤ) := by norm_num
    rw [e2, e, hmax]
    have e3 : Int.log 2 y + (52 - 52) = Int.log 2 y := by ring
    rw [e3]
    exact log_le_self y hy
  have hm := roundHalfEven_ge _ _ h52
  have hm2 : (2 : ℚ) ^ (52 : ℤ) ≤ (roundHalfEven (y / quantum y) : ℚ) := by
    have : (((2 ^ 52 : ℕ) : ℤ) : ℚ) ≤ ((roundHalfEven (y / quantum y) : ℤ) : ℚ) := by
      exact_mod_cast hm
    have e2 : (((2 ^ 52 : ℕ) : ℤ) : ℚ) = (2 : ℚ) ^ (52 : ℤ) := by norm_num
    rw [e2] at this
    exact this
  unfold roundPos
  calc (2 : ℚ) ^ (Int.log 2 y) = 2 ^ (52 : ℤ) * quantum y := by
        rw [quantum_mul y hy, hmax]
        congr 1
        ring
    _ ≤ (roundHalfEven (y / quantum y) : ℚ) * quantum y :=
        mul_le_mul_of_nonneg_right hm2 (le_of_lt hq)

theorem roundPos_mono (x y : ℚ) (hx : 0 < x) (h : x ≤ y) : roundPos x ≤ roundPos y := by
  have hy : 0 < y := lt_of_lt_of_le hx h
  have hlog : Int.log 2 x ≤ Int.log 2 y := Int.log_mono_right hx h
  have hE : max (Int.log 2 x) (-1022) ≤ max (Int.log 2 y) (-1022) :=
    max_le_max hlog (le_refl _)
  by_cases heq : max (Int.log 2 x) (-1022) = max (Int.log 2 y) (-1022)
  · have hq : quantum x = quantum y := by
      rw [quantum_eq x hx, quantum_eq y hy, heq]
    have hqpos := quantum_pos y
    unfold roundPos
    rw [hq]
    have hdiv : x / quantum y ≤ y / quantum y :=
      (div_le_div_iff_of_pos_right hqpos).2 h
    have := roundHalfEven_mono _ _ hdiv
    exact mul_le_mul_of_nonneg_right (by exact_mod_cast this) (le_of_lt hqpos)
  · have hlt : max (Int.log 2 x) (-1022) < max (Int.log 2 y) (-1022) :=
      lt_of_le_of_ne hE heq
    have hnorm : -1022 ≤ Int.log 2 y := by
      by_contra hc
      have h1 : max (Int.log 2 y) (-1022) = -1022 := max_eq_right (by omega)
      have h2 := le_max_right (Int.log 2 x) (-1022)
      omega
    have hmax : max (Int.log 2 y) (-1022) = Int.log 2 y := max_eq_left hnorm
    calc roundPos x ≤ 2 ^ (max (Int.log 2 x) (-1022) + 1) := roundPos_le_pow x hx
      _ ≤ 2 ^ (Int.log 2 y) := two_zpow_le (by omega)
      _ ≤ roundPos y := roundPos_ge_pow y hy hnorm

theorem round64_zero : round64 0 = 0 := by
  simp [round64]

theorem round64_of_pos (x : ℚ) (hx : 0 < x) : round64 x = roundPos x := by
  simp [round64, hx]

theorem round64_of_neg (x : ℚ) (hx : x < 0) : round64 x = -roundPos (-x) := by
  have : ¬ (0 < x) := not_lt.2 (le_of_lt hx)
  simp [round64, hx, this]

theorem round64_nonneg (x : ℚ) (hx : 0 ≤ x) : 0 ≤ round64 x := by
  rcases eq_or_lt_of_le hx with h | h
  · rw [← h, round64_zero]
  · rw [round64_of_pos x h]
    exact roundPos_nonneg x h

theorem round64_nonpos (x : ℚ) (hx : x ≤ 0) : round64 x ≤ 0 := by
  rcases eq_or_lt_of_le hx with h | h
  · rw [h, round64_zero]
  · rw [round64_of_neg x h]
    have := roundPos_nonneg (-x) (by linarith)
    linarith

theorem round64_mono (x y : ℚ) (h : x ≤ y) : round64 x ≤ round64 y := by
  rcases lt_trichotomy 0 x with hx | hx | hx
  · rw [round64_of_pos x hx, round64_of_pos y (lt_of_lt_of_le hx h)]
    exact roundPos_mono x y hx h
  · rw [← hx, round64_zero]
    exact round64_nonneg y (by linarith)
  · rcases lt_or_le y 0 with hy | hy
    · rw [round64_of_neg x hx, round64_of_neg y hy]
      have := roundPos_mono (-y) (-x) (by linarith) (by linarith)
      linarith
    · exact le_trans (round64_nonpos x (le_of_lt hx)) (round64_nonneg y hy)

theorem roundPos_fixed (x : ℚ) (hx : 0 < x) :
    roundPos x = 0 ∨ (0 < roundPos x ∧ roundPos (roundPos x) = roundPos x) := by
  have hq := quantum_pos x
  have hm0 : (0 : ℤ) ≤ roundHalfEven (x / quantum x) :=
    roundHalfEven_ge _ 0 (by
      have : 0 ≤ x / quantum x := div_nonneg (le_of_lt hx) (le_of_lt hq)
      simpa using this)
  have hle := roundPos_le_pow x hx
  have hj : -1074 ≤ max (Int.log 2 x) (-1022) - 52 := by
    have := le_max_right (Int.log 2 x) (-1022)
    omega
  obtain ⟨m, hm⟩ : ∃ m : ℕ, roundHalfEven (x / quantum x) = (m : ℤ) :=
    ⟨(roundHalfEven (x / quantum x)).toNat, by omega⟩
  have hval : roundPos x = (m : ℚ) * 2 ^ (max (Int.log 2 x) (-1022) - 52) := by
    unfold roundPos
    rw [hm, quantum_eq x hx]
    rfl
  rcases Nat.eq_zero_or_pos m with h0 | hpos
  · left
    rw [hval, h0]
    simp
  · right
    have hrpos : 0 < roundPos x := by
      rw [hval]
      exact mul_pos (by exact_mod_cast hpos) (two_zpow_pos _)
    refine ⟨hrpos, ?_⟩
    have hm53 : (m : ℚ) ≤ 2 ^ (53 : ℤ) := by
      have h1 : (m : ℚ) * 2 ^ (max (Int.log 2 x) (-1022) - 52)
          ≤ 2 ^ (53 : ℤ) * 2 ^ (max (Int.log 2 x) (-1022) - 52) := by
        rw [← hval, ← zpow_add₀ (by norm_num : (2 : ℚ) ≠ 0)]
        have e : (53 : ℤ) + (max (Int.log 2 x) (-1022) - 52)
            = max (Int.log 2 x) (-1022) + 1 := by ring
        rw [e]
        exact hle
      exact le_of_mul_le_mul_right h1 (two_zpow_pos _)
    have hm53n : m ≤ 2 ^ 53 := by
      have e : (2 : ℚ) ^ (53 : ℤ) = ((2 ^ 53 : ℕ) : ℚ) := by norm_num
      rw [e] at hm53
      exact_mod_cast hm53
    rcases Nat.lt_or_ge m (2 ^ 53) with hlt | hge
    · rw [hval]
      exact roundPos_representable m _ hpos hlt hj
    · have hmeq : m = 2 ^ 53 := le_antisymm hm53n hge
      have hval2 : roundPos x
          = ((2 ^ 52 : ℕ) : ℚ) * 2 ^ (max (Int.log 2 x) (-1022) - 52 + 1) := by
        rw [hval, hmeq, zpow_add₀ (by norm_num : (2 : ℚ) ≠ 0)]
        push_cast
        ring
      rw [hval2]
      exact roundPos_representable (2 ^ 52) _ (by norm_num) (by norm_num) (by omega)

theorem round64_idem (x : ℚ) : round64 (round64 x) = round64 x := by
  rcases lt_trichotomy 0 x with hx | hx | hx
  · rw [round64_of_pos x hx]
    rcases roundPos_fixed x hx with h | ⟨h1, h2⟩
    · rw [h, round64_zero]
    · rw [round64_of_pos _ h1, h2]
  · rw [← hx, round64_zero, round64_zero]
  · rw [round64_of_neg x hx]
    rcases roundPos_fixed (-x) (by linarith) with h | ⟨h1, h2⟩
    · rw [h, neg_zero, round64_zero]
    · rw [round64_of_neg _ (by linarith), neg_neg, h2]

theorem round64_natCast (n : ℕ) (hn : n < 2 ^ 53) : round64 (n : ℚ) = n := by
  rcases Nat.eq_zero_or_pos n with h0 | hpos
  · rw [h0]
    simp [round64_zero]
  · have hx : (0 : ℚ) < (n : ℚ) := by exact_mod_cast hpos
    rw [round64_of_pos _ hx]
    have := roundPos_representable n 0 hpos hn (by norm_num)
    simpa using this

theorem round64_one : round64 1 = 1 := by
  have := round64_natCast 1 (by norm_num)
  simpa using this

theorem round64_error (x : ℚ) (h0 : 0 ≤ x) (h2 : x < 2) : |round64 x - x| ≤ 1 / 2 ^ 53 := by
  rcases eq_or_lt_of_le h0 with h | h
  · rw [← h, round64_zero]
    norm_num
  · rw [round64_of_pos x h]
    exact roundPos_error x h h2

theorem round64_rounds : Rounds round64 (1 / 2 ^ 53) :=
  ⟨round64_zero, round64_one, round64_mono, round64_idem, round64_error⟩

/-- Sample values of `round64`: `1/3` and `1/10` round to the binary64 numbers
printed as `0.3333333333333333` and `0.1`, ties go to the even neighbour, and
below the normal range the spacing is `2⁻¹⁰⁷⁴`. -/
theorem round64_examples :
    round64 (1 / 3) = 6004799503160661 / 18014398509481984 ∧
    round64 (1 / 10) = 3602879701896397 / 36028797018963968 ∧
    round64 (2 ^ 53 + 1) = 2 ^ 53 ∧
    round64 (2 ^ 53 + 3) = 2 ^ 53 + 4 ∧
    round64 (-(1 / 3)) = -(6004799503160661 / 18014398509481984) ∧
    round64 (1 / 2 ^ 1075) = 0 ∧
    round64 (3 / 2 ^ 1075) = 1 / 2 ^ 1073 := by
  decide!

/-! ## Order facts that hold under any monotone idempotent rounding -/

theorem fl_nonneg {fl : ℚ → ℚ} {η : ℚ} (hR : Rounds fl η) (x : ℚ) (hx : 0 ≤ x) : 0 ≤ fl x := by
  have := hR.2.2.1 0 x hx
  rwa [hR.1] at this

theorem share_fixed {fl : ℚ → ℚ} {η : ℚ} (hR : Rounds fl η) (n k : ℕ) :
    fl (share fl n k) = share fl n k := by
  cases k with
  | zero => rw [share_zero, hR.1]
  | succ j => rw [share_succ, hR.2.2.2.1]

theorem unit_nonneg {fl : ℚ → ℚ} {η : ℚ} (hR : Rounds fl η) (n : ℕ) :
    0 ≤ fl (1 / fl (n : ℚ)) := by
  apply fl_nonneg hR
  apply div_nonneg (by norm_num)
  exact fl_nonneg hR _ (by exact_mod_cast Nat.zero_le n)

theorem share_nonneg {fl : ℚ → ℚ} {η : ℚ} (hR : Rounds fl η) (n k : ℕ) :
    0 ≤ share fl n k := by
  induction k with
  | zero => rw [share_zero]
  | succ j ih =>
    rw [share_succ]
    exact fl_nonneg hR _ (add_nonneg ih (unit_nonneg hR n))

theorem calculateProbabilities_nonneg {fl : ℚ → ℚ} {η : ℚ} (hR : Rounds fl η)
    (sortSlice : (Char → Char → Bool) → List Char → List Char) (hperm : PermutesSlice sortSlice)
    (T : String) (collator : String → String → Int) :
    ∀ p ∈ calculateProbabilities fl sortSlice T collator, 0 ≤ p.value ∧ fl p.value = p.value := by
  intro p hp
  obtain ⟨c, _, rfl⟩ := (mem_calculateProbabilities fl sortSlice hperm T collator p).1 hp
  exact ⟨share_nonneg hR _ _, share_fixed hR _ _⟩

theorem segmentsLoop_ascending {fl : ℚ → ℚ} {η : ℚ} (hR : Rounds fl η)
    (probs : List Probability) (t : ℚ) (hpos : ∀ p ∈ probs, 0 ≤ p.value) (ht : fl t = t) :
    (segmentsLoop fl probs t []).Pairwise (fun a b => a.top ≤ b.bottom) ∧
      ∀ s ∈ segmentsLoop fl probs t [], t ≤ s.bottom ∧ s.bottom ≤ s.top := by
  induction probs generalizing t with
  | nil => simp [segmentsLoop]
  | cons q qs ih =>
    have hq : 0 ≤ q.value := hpos q (List.mem_cons_self _ _)
    have hstep : t ≤ fl (q.value + t) := by
      have := hR.2.2.1 t (q.value + t) (by linarith)
      rwa [ht] at this
    obtain ⟨ih1, ih2⟩ := ih (fl (q.value + t))
      (fun p hp => hpos p (List.mem_cons_of_mem _ hp)) (hR.2.2.2.1 _)
    rw [segmentsLoop_cons]
    constructor
    · rw [List.pairwise_cons]
      exact ⟨fun s hs => (ih2 s hs).1, ih1⟩
    · intro s hs
      rcases List.mem_cons.1 hs with rfl | hs2
      · exact ⟨le_refl _, hstep⟩
      · exact ⟨le_trans hstep (ih2 s hs2).1, (ih2 s hs2).2⟩

theorem table_ascending {fl : ℚ → ℚ} {η : ℚ} (hR : Rounds fl η)
    (sortSlice : (Char → Char → Bool) → List Char → List Char) (hperm : PermutesSlice sortSlice)
    (T : String) (collator : String → String → Int) :
    Ascending (getSegments fl (calculateProbabilities fl sortSlice T collator)) := by
  obtain ⟨h1, h2⟩ := segmentsLoop_ascending hR
    (calculateProbabilities fl sortSlice T collator) 0
    (fun p hp => (calculateProbabilities_nonneg hR sortSlice hperm T collator p hp).1) hR.1
  exact ⟨h1, h2⟩

theorem width_nonneg {fl : ℚ → ℚ} {η : ℚ} (hR : Rounds fl η) (lo hi : ℚ) (h : lo ≤ hi) :
    0 ≤ fl (hi - lo) :=
  fl_nonneg hR _ (by linarith)

theorem candidate_mono {fl : ℚ → ℚ} {η : ℚ} (hR : Rounds fl η) (lo hi : ℚ) (h : lo ≤ hi)
    (b c : ℚ) (hbc : b ≤ c) : candidate fl lo hi b ≤ candidate fl lo hi c := by
  unfold candidate
  apply hR.2.2.1
  have := hR.2.2.1 _ _ (mul_le_mul_of_nonneg_left hbc (width_nonneg hR lo hi h))
  linarith

theorem candidate_ge {fl : ℚ → ℚ} {η : ℚ} (hR : Rounds fl η) (lo hi : ℚ) (h : lo ≤ hi)
    (hlo : fl lo = lo) (b : ℚ) (hb : 0 ≤ b) : lo ≤ candidate fl lo hi b := by
  unfold candidate
  have h1 : 0 ≤ fl (fl (hi - lo) * b) :=
    fl_nonneg hR _ (mul_nonneg (width_nonneg hR lo hi h) hb)
  have := hR.2.2.1 lo (lo + fl (fl (hi - lo) * b)) (by linarith)
  rwa [hlo] at this

theorem candidate_fixed {fl : ℚ → ℚ} {η : ℚ} (hR : Rounds fl η) (lo hi b : ℚ) :
    fl (candidate fl lo hi b) = candidate fl lo hi b :=
  hR.2.2.2.1 _

theorem encodeLoop_ascending {fl : ℚ → ℚ} {η : ℚ} (hR : Rounds fl η) (seg : List Boundary)
    (hseg : ∀ s ∈ seg, 0 ≤ s.bottom ∧ s.bottom ≤ s.top)
    (text : List Char) (bot top : ℚ) (h : List Boundary) (sym : String) (hbt : bot ≤ top)
    (hbot : fl bot = bot) (hok : encodeLoop fl seg text bot top [] = .ok h) :
    List.Chain (fun a b : Boundary => a.bottom ≤ b.bottom ∧ b.bottom ≤ b.top)
      ⟨sym, bot, top⟩ h := by
  induction text generalizing bot top h sym with
  | nil =>
    rw [(encodeLoop_nil fl seg bot top h).1 hok]
    exact List.Chain.nil
  | cons c cs ih =>
    obtain ⟨sb, st, rest, hf, hrest, rfl⟩ := (encodeLoop_cons fl seg c cs bot top h).1 hok
    obtain ⟨e, he, _, rfl, rfl⟩ := findBoundary_ok_mem seg _ sb st hf
    obtain ⟨h0, h1⟩ := hseg e he
    have k1 := candidate_ge hR bot top hbt hbot e.bottom h0
    have k2 := candidate_mono hR bot top hbt e.bottom e.top h1
    exact List.Chain.cons ⟨k1, k2⟩
      (ih _ _ rest _ k2 (candidate_fixed hR _ _ _) hrest)

theorem eta_nonneg {fl : ℚ → ℚ} {η : ℚ} (hR : Rounds fl η) : 0 ≤ η := by
  have h := hR.2.2.2.2 0 (le_refl _) (by norm_num)
  rw [hR.1] at h
  simpa using h

theorem unit_error {fl : ℚ → ℚ} {η : ℚ} (hR : Rounds fl η) (n : ℕ) (hn : 0 < n)
    (hfix : fl (n : ℚ) = n) : |fl (1 / fl (n : ℚ)) - 1 / n| ≤ η := by
  have hnQ : (1 : ℚ) ≤ n := by exact_mod_cast hn
  rw [hfix]
  apply hR.2.2.2.2
  · positivity
  · have : (1 : ℚ) / n ≤ 1 := by
      rw [div_le_one (by linarith)]
      exact hnQ
    linarith

theorem share_error {fl : ℚ → ℚ} {η : ℚ} (hR : Rounds fl η) (n : ℕ) (hn : 0 < n)
    (hfix : fl (n : ℚ) = n) (hsmall : 2 * (n : ℚ) * η < 1) (k : ℕ) (hk : k ≤ n) :
    |share fl n k - (k : ℚ) / n| ≤ 2 * k * η := by
  induction k with
  | zero => simp [share_zero]
  | succ j ih =>
    have ihj := abs_le.1 (ih (by omega))
    have hη := eta_nonneg hR
    have hu := abs_le.1 (unit_error hR n hn hfix)
    have hnQ : (0 : ℚ) < n := by exact_mod_cast hn
    have hjn : ((j : ℚ) + 1) / n ≤ 1 := by
      rw [div_le_one hnQ]
      exact_mod_cast hk
    have hsplit : ((j : ℚ) + 1) / n = (j : ℚ) / n + 1 / n := by ring
    have hs0 : 0 ≤ share fl n j := share_nonneg hR n j
    have hu0 : 0 ≤ fl (1 / fl (n : ℚ)) := unit_nonneg hR n
    have hjle : 2 * (j : ℚ) + 1 ≤ 2 * n := by
      have : (j : ℚ) + 1 ≤ n := by exact_mod_cast hk
      linarith
    have hprod : (2 * (j : ℚ) + 1) * η ≤ 2 * n * η := mul_le_mul_of_nonneg_right hjle hη
    have hlt2 : share fl n j + fl (1 / fl (n : ℚ)) < 2 := by linarith
    have hf := abs_le.1 (hR.2.2.2.2 (share fl n j + fl (1 / fl (n : ℚ))) (by linarith) hlt2)
    rw [share_succ, abs_le]
    push_cast
    constructor <;> linarith

theorem share_lower {fl : ℚ → ℚ} {η : ℚ} (hR : Rounds fl η) (n : ℕ) (hn : 0 < n)
    (hfix : fl (n : ℚ) = n) (hsmall : 2 * (n : ℚ) * η < 1) (k : ℕ) (hk1 : 1 ≤ k)
    (hk : k ≤ n) : 1 / (n : ℚ) - 2 * η ≤ share fl n k := by
  have h := abs_le.1 (share_error hR n hn hfix hsmall k hk)
  have hnQ : (0 : ℚ) < n := by exact_mod_cast hn
  have hkQ : (1 : ℚ) ≤ k := by exact_mod_cast hk1
  have hpos : 0 ≤ 1 / (n : ℚ) - 2 * η := by
    have : 2 * η ≤ 1 / (n : ℚ) := by
      rw [le_div_iff₀ hnQ]
      linarith
    linarith
  have hmul : 1 * (1 / (n : ℚ) - 2 * η) ≤ (k : ℚ) * (1 / (n : ℚ) - 2 * η) :=
    mul_le_mul_of_nonneg_right hkQ hpos
  have e : (k : ℚ) * (1 / (n : ℚ) - 2 * η) = (k : ℚ) / n - 2 * k * η := by ring
  linarith

theorem share_pos {fl : ℚ → ℚ} {η : ℚ} (hR : Rounds fl η) (n : ℕ) (hn : 0 < n)
    (hfix : fl (n : ℚ) = n) (hsmall : 2 * (n : ℚ) * η < 1) (k : ℕ) (hk1 : 1 ≤ k)
    (hk : k ≤ n) : 0 < share fl n k := by
  have h := share_lower hR n hn hfix hsmall k hk1 hk
  have hnQ : (0 : ℚ) < n := by exact_mod_cast hn
  have : 2 * η < 1 / (n : ℚ) := by
    rw [lt_div_iff₀ hnQ]
    linarith
  linarith

theorem shares_sum_error {fl : ℚ → ℚ} {η : ℚ} (hR : Rounds fl η) (n : ℕ) (hn : 0 < n)
    (hfix : fl (n : ℚ) = n) (hsmall : 2 * (n : ℚ) * η < 1) (cnt : Char → ℕ) (L : List Char)
    (hc : ∀ c ∈ L, cnt c ≤ n) :
    |(L.map (fun c => share fl n (cnt c))).sum - (((L.map cnt).sum : ℕ) : ℚ) / n|
      ≤ 2 * (((L.map cnt).sum : ℕ) : ℚ) * η := by
  induction L with
  | nil => simp
  | cons c cs ih =>
    have h1 := abs_le.1 (share_error hR n hn hfix hsmall (cnt c) (hc c (List.mem_cons_self _ _)))
    have h2 := abs_le.1 (ih (fun d hd => hc d (List.mem_cons_of_mem _ hd)))
    simp only [List.map_cons, List.sum_cons]
    rw [abs_le, Nat.cast_add, add_div]
    constructor <;> linarith

theorem values_sum_error {fl : ℚ → ℚ} {η : ℚ} (hR : Rounds fl η)
    (sortSlice : (Char → Char → Bool) → List Char → List Char) (hperm : PermutesSlice sortSlice)
    (T : String) (collator : String → String → Int) (hT : T ≠ "")
    (hfix : fl (T.length : ℚ) = T.length) (hsmall : 2 * (T.length : ℚ) * η < 1) :
    |((calculateProbabilities fl sortSlice T collator).map Probability.value).sum - 1|
      ≤ 2 * (T.length : ℚ) * η := by
  have hlen : (sortSlice (lessBy collator) T.data).length = T.length :=
    (hperm (lessBy collator) T.data).length_eq
  have hpos : 0 < T.length := by
    rw [string_length_eq]
    exact List.length_pos.2 (data_ne_nil hT)
  have h := shares_sum_error hR T.length hpos hfix hsmall
    (fun c => (sortSlice (lessBy collator) T.data).count c)
    (firstAppearances (sortSlice (lessBy collator) T.data))
    (fun c _ => by
      rw [← hlen]
      exact List.count_le_length _ _)
  rw [sum_count_firstAppearances, hlen] at h
  have hne : (T.length : ℚ) ≠ 0 := by exact_mod_cast (ne_of_gt hpos)
  rw [div_self hne] at h
  rw [calculateProbabilities_eq, List.map_map]
  exact h

theorem runningSum_error {fl : ℚ → ℚ} {η : ℚ} (hR : Rounds fl η) (probs : List Probability)
    (t : ℚ) (hp : ∀ p ∈ probs, 0 ≤ p.value) (ht : 0 ≤ t)
    (hlt : t + (probs.map Probability.value).sum + probs.length * η < 2) :
    |runningSum fl probs t - (t + (probs.map Probability.value).sum)| ≤ probs.length * η := by
  induction probs generalizing t with
  | nil => simp [runningSum]
  | cons p ps ih =>
    have hη := eta_nonneg hR
    have hp0 : 0 ≤ p.value := hp p (List.mem_cons_self _ _)
    have hsum0 : 0 ≤ (ps.map Probability.value).sum :=
      List.sum_nonneg (fun x hx => by
        obtain ⟨q, hq, rfl⟩ := List.mem_map.1 hx
        exact hp q (List.mem_cons_of_mem _ hq))
    simp only [List.map_cons, List.sum_cons, List.length_cons] at hlt ⊢
    push_cast at hlt ⊢
    have hlen0 : 0 ≤ (ps.length : ℚ) * η := mul_nonneg (by positivity) hη
    have hstep := abs_le.1 (hR.2.2.2.2 (p.value + t) (by linarith) (by linarith))
    have ht2 : 0 ≤ fl (p.value + t) := fl_nonneg hR _ (by linarith)
    have hrec := abs_le.1 (ih (fl (p.value + t))
      (fun q hq => hp q (List.mem_cons_of_mem _ hq)) ht2 (by linarith))
    rw [runningSum, abs_le]
    constructor <;> linarith

theorem segmentsLoop_strict {fl : ℚ → ℚ} {η : ℚ} (hR : Rounds fl η) (probs : List Probability)
    (t : ℚ) (hp : ∀ p ∈ probs, η < p.value) (ht : 0 ≤ t)
    (hlt : t + (probs.map Probability.value).sum + probs.length * η < 2) :
    ∀ s ∈ segmentsLoop fl probs t [], s.bottom < s.top := by
  induction probs generalizing t with
  | nil => simp [segmentsLoop]
  | cons p ps ih =>
    have hη := eta_nonneg hR
    have hp0 : η < p.value := hp p (List.mem_cons_self _ _)
    have hsum0 : 0 ≤ (ps.map Probability.value).sum :=
      List.sum_nonneg (fun x hx => by
        obtain ⟨q, hq, rfl⟩ := List.mem_map.1 hx
        exact le_of_lt (lt_of_le_of_lt hη (hp q (List.mem_cons_of_mem _ hq))))
    simp only [List.map_cons, List.sum_cons, List.length_cons] at hlt
    push_cast at hlt
    have hlen0 : 0 ≤ (ps.length : ℚ) * η := mul_nonneg (by positivity) hη
    have hstep := abs_le.1 (hR.2.2.2.2 (p.value + t) (by linarith) (by linarith))
    have ht2 : 0 ≤ fl (p.value + t) := fl_nonneg hR _ (by linarith)
    rw [segmentsLoop_cons]
    intro s hs
    rcases List.mem_cons.1 hs with rfl | hs2
    · show t < fl (p.value + t)
      linarith
    · exact ih (fl (p.value + t)) (fun q hq => hp q (List.mem_cons_of_mem _ hq)) ht2
        (by linarith) s hs2

/-! ## The bounds in binary64 -/

theorem calculateProbabilities_ne_nil (fl : ℚ → ℚ)
    (sortSlice : (Char → Char → Bool) → List Char → List Char) (hperm : PermutesSlice sortSlice)
    (T : String) (collator : String → String → Int) (hT : T ≠ "") :
    calculateProbabilities fl sortSlice T collator ≠ [] := by
  obtain ⟨c, hc⟩ := List.exists_mem_of_ne_nil _ (data_ne_nil hT)
  have := (mem_calculateProbabilities fl sortSlice hperm T collator _).2 ⟨c, hc, rfl⟩
  exact List.ne_nil_of_mem this

theorem round64_small (n : ℕ) (k : ℕ) (hn : k * n < 2 ^ 53) :
    (k : ℚ) * (n : ℚ) * (1 / 2 ^ 53) < 1 := by
  have h : ((k * n : ℕ) : ℚ) < ((2 ^ 53 : ℕ) : ℚ) := by exact_mod_cast hn
  push_cast at h
  rw [mul_one_div, div_lt_one (by positivity)]
  exact h

theorem length_pos_of_ne {T : String} (hT : T ≠ "") : 0 < T.length := by
  rw [string_length_eq]
  exact List.length_pos.2 (data_ne_nil hT)

/-! ## Texts of one repeated symbol -/

/-- Claim C2.  For every text and every comparator (also one that reports
distinct symbols equal) the list returned by `calculateProbabilities` has
pairwise distinct symbols, and a string is the symbol of an entry exactly when
it is `string(c)` for a code point `c` of the text. -/
theorem calculateProbabilities_one_entry_per_symbol (fl : ℚ → ℚ)
    (sortSlice : (Char → Char → Bool) → List Char → List Char) (hperm : PermutesSlice sortSlice)
    (T : String) (collator : String → String → Int) :
    ((calculateProbabilities fl sortSlice T collator).map Probability.symbol).Nodup ∧
      ∀ s : String, s ∈ (calculateProbabilities fl sortSlice T collator).map Probability.symbol
        ↔ ∃ c ∈ T.data, s = String.singleton c := by
  constructor
  · rw [calculateProbabilities_eq, List.map_map]
    refine (firstAppearances_nodup _).map ?_
    intro a b hab
    exact singleton_injective hab
  · intro s
    rw [List.mem_map]
    constructor
    · rintro ⟨p, hp, rfl⟩
      obtain ⟨c, hc, rfl⟩ := (mem_calculateProbabilities fl sortSlice hperm T collator p).1 hp
      exact ⟨c, hc, rfl⟩
    · rintro ⟨c, hc, rfl⟩
      exact ⟨_, (mem_calculateProbabilities fl sortSlice hperm T collator _).2 ⟨c, hc, rfl⟩,
        rfl⟩

/-- Witness for C2 on the text "BAAB" in binary64. -/
theorem calculateProbabilities_one_entry_per_symbol_witness :
    ((calculateProbabilities round64 stableSort "BAAB" codePointCompare).map
        Probability.symbol).Nodup ∧
      ∀ s : String,
        s ∈ (calculateProbabilities round64 stableSort "BAAB" codePointCompare).map
            Probability.symbol
          ↔ ∃ c ∈ "BAAB".data, s = String.singleton c :=
  calculateProbabilities_one_entry_per_symbol round64 stableSort stableSort_permutes "BAAB"
    codePointCompare

/-- Counterexample to C3, in binary64.  For the text of nine `A` the only
entry of `calculateProbabilities` has the value `1 + 2⁻⁵²`, which exceeds `1`
and is not `9 / 9`; for "AAB" the value of `A` is `6004799503160661 / 2⁵³`,
not `2 / 3`. -/
theorem calculateProbabilities_value_exceeds_one :
    calculateProbabilities round64 stableSort "AAAAAAAAA" codePointCompare
      = [⟨"A", 4503599627370497 / 4503599627370496⟩] ∧
    (1 : ℚ) < 4503599627370497 / 4503599627370496 ∧
    calculateProbabilities round64 stableSort "AAB" codePointCompare
      = [⟨"A", 6004799503160661 / 9007199254740992⟩,
         ⟨"B", 6004799503160661 / 18014398509481984⟩] ∧
    (6004799503160661 / 9007199254740992 : ℚ) ≠ 2 / 3 := by
  decide!

/-- Claim C3 as amended.  For every text `T` with `N < 2⁵²` code points, every
entry returned by `calculateProbabilities` in binary64 is the entry of a code
point `c` of `T`, and its value is the rounded `1 / N` added once per
occurrence of `c`, each addition rounded (`share round64 N count`); the value
is positive and differs from `count / N` by at most `count / 2⁵²`. -/
theorem calculateProbabilities_value_eq_share
    (sortSlice : (Char → Char → Bool) → List Char → List Char) (hperm : PermutesSlice sortSlice)
    (T : String) (collator : String → String → Int) (hN : T.length < 2 ^ 52)
    (p : Probability) (hp : p ∈ calculateProbabilities round64 sortSlice T collator) :
    ∃ c ∈ T.data, p.symbol = String.singleton c ∧
      p.value = share round64 T.length (T.data.count c) ∧
      0 < p.value ∧
      |p.value - (T.data.count c : ℚ) / T.length| ≤ (T.data.count c : ℚ) / 2 ^ 52 := by
  obtain ⟨c, hc, rfl⟩ := (mem_calculateProbabilities round64 sortSlice hperm T collator p).1 hp
  have hpos : 0 < T.length := by
    rw [string_length_eq]
    exact List.length_pos_of_mem hc
  have hfix : round64 (T.length : ℚ) = T.length := round64_natCast _ (by omega)
  have hsmall : 2 * (T.length : ℚ) * (1 / 2 ^ 53) < 1 := by
    have := round64_small T.length 2 (by omega)
    simpa using this
  have hk1 : 1 ≤ T.data.count c := List.count_pos_iff.2 hc
  have hk : T.data.count c ≤ T.length := List.count_le_length _ _
  refine ⟨c, hc, rfl, rfl, ?_, ?_⟩
  · exact share_pos round64_rounds T.length hpos hfix hsmall _ hk1 hk
  · have h := share_error round64_rounds T.length hpos hfix hsmall _ hk
    have e : 2 * (T.data.count c : ℚ) * (1 / 2 ^ 53) = (T.data.count c : ℚ) / 2 ^ 52 := by
      norm_num
      ring
    rw [e] at h
    exact h

/-- Witness for the amended C3: the entry of `A` in the binary64 model of
"AAB". -/
theorem calculateProbabilities_value_eq_share_witness :
    "AAB".length < 2 ^ 52 ∧
    (⟨"A", 6004799503160661 / 9007199254740992⟩ : Probability)
      ∈ calculateProbabilities round64 stableSort "AAB" codePointCompare ∧
    ∃ c ∈ "AAB".data,
      (⟨"A", 6004799503160661 / 9007199254740992⟩ : Probability).symbol = String.singleton c ∧
      (⟨"A", 6004799503160661 / 9007199254740992⟩ : Probability).value
        = share round64 "AAB".length ("AAB".data.count c) ∧
      0 < (⟨"A", 6004799503160661 / 9007199254740992⟩ : Probability).value ∧
      |(⟨"A", 6004799503160661 / 9007199254740992⟩ : Probability).value
          - ("AAB".data.count c : ℚ) / "AAB".length| ≤ ("AAB".data.count c : ℚ) / 2 ^ 52 :=
  ⟨by decide, by decide!,
    calculateProbabilities_value_eq_share stableSort stableSort_permutes "AAB" codePointCompare
      (by decide) _ (by decide!)⟩

/-- Counterexample to C5, in binary64.  The table of the text of six `A` is
the single segment `(0, 1 - 2⁻⁵³)`: its last top is not `1`. -/
theorem getSegments_last_top_not_one :
    getSegments round64 (calculateProbabilities round64 stableSort "AAAAAA" codePointCompare)
      = [⟨"A", 0, 9007199254740991 / 9007199254740992⟩] ∧
    (9007199254740991 / 9007199254740992 : ℚ) ≠ 1 := by
  decide!

/-- Claim C5 as amended.  For every non-empty text of `N < 2⁵¹` code points
the binary64 table `getSegments (calculateProbabilities T order)` is
non-empty, its first segment has bottom `0`, the top of every segment is the
bottom of the next one, every segment has `bottom < top`, and the top of the
last segment is within `3 N / 2⁵³` of `1`. -/
theorem getSegments_partition
    (sortSlice : (Char → Char → Bool) → List Char → List Char) (hperm : PermutesSlice sortSlice)
    (T : String) (collator : String → String → Int) (hT : T ≠ "") (hN : T.length < 2 ^ 51) :
    getSegments round64 (calculateProbabilities round64 sortSlice T collator) ≠ [] ∧
    (∃ first, (getSegments round64 (calculateProbabilities round64 sortSlice T collator)).head?
        = some first ∧ first.bottom = 0) ∧
    (∀ (i : ℕ) (a b : Boundary),
      (getSegments round64 (calculateProbabilities round64 sortSlice T collator))[i]? = some a →
      (getSegments round64 (calculateProbabilities round64 sortSlice T collator))[i + 1]?
        = some b →
      a.top = b.bottom) ∧
    (∀ s ∈ getSegments round64 (calculateProbabilities round64 sortSlice T collator),
      s.bottom < s.top) ∧
    (∃ last, (getSegments round64 (calculateProbabilities round64 sortSlice T collator)).getLast?
        = some last ∧ |last.top - 1| ≤ 3 * (T.length : ℚ) / 2 ^ 53) := by
  have hne := calculateProbabilities_ne_nil round64 sortSlice hperm T collator hT
  have hpos := length_pos_of_ne hT
  have hfix : round64 (T.length : ℚ) = T.length := round64_natCast _ (by omega)
  have hsmall : 2 * (T.length : ℚ) * (1 / 2 ^ 53) < 1 := by
    have := round64_small T.length 2 (by omega)
    simpa using this
  have hsmall3 : 3 * (T.length : ℚ) * (1 / 2 ^ 53) < 1 := by
    have := round64_small T.length 3 (by omega)
    simpa using this
  have hsum := abs_le.1
    (values_sum_error round64_rounds sortSlice hperm T collator hT hfix hsmall)
  have hNQ : (1 : ℚ) ≤ T.length := by exact_mod_cast hpos
  -- every value exceeds the rounding error
  have hval : ∀ p ∈ calculateProbabilities round64 sortSlice T collator,
      (1 / 2 ^ 53 : ℚ) < p.value := by
    intro p hp
    obtain ⟨c, hc, rfl⟩ :=
      (mem_calculateProbabilities round64 sortSlice hperm T collator p).1 hp
    have h := share_lower round64_rounds T.length hpos hfix hsmall (T.data.count c)
      (List.count_pos_iff.2 hc) (List.count_le_length _ _)
    have h3 : 3 * (1 / 2 ^ 53 : ℚ) < 1 / (T.length : ℚ) := by
      rw [lt_div_iff₀ (by linarith)]
      linarith
    show (1 / 2 ^ 53 : ℚ) < share round64 T.length (T.data.count c)
    linarith
  -- the number of entries is at most the number of code points
  have hlen : (calculateProbabilities round64 sortSlice T collator).length ≤ T.length := by
    rw [calculateProbabilities_eq, List.length_map, string_length_eq,
      ← (hperm (lessBy collator) T.data).length_eq]
    exact (firstAppearances_sublist _).length_le
  have hlenQ : ((calculateProbabilities round64 sortSlice T collator).length : ℚ)
      * (1 / 2 ^ 53) ≤ (T.length : ℚ) * (1 / 2 ^ 53) :=
    mul_le_mul_of_nonneg_right (by exact_mod_cast hlen) (by norm_num)
  have hbudget : (0 : ℚ)
      + ((calculateProbabilities round64 sortSlice T collator).map Probability.value).sum
      + ((calculateProbabilities round64 sortSlice T collator).length : ℚ) * (1 / 2 ^ 53)
      < 2 := by linarith
  refine ⟨?_, ?_, ?_, ?_, ?_⟩
  · intro h
    have hl := segmentsLoop_length round64 (calculateProbabilities round64 sortSlice T collator) 0
    rw [getSegments] at h
    rw [h] at hl
    exact hne (List.length_eq_zero.1 hl.symm)
  · cases hc : calculateProbabilities round64 sortSlice T collator with
    | nil => exact absurd hc hne
    | cons p ps =>
      rw [getSegments, segmentsLoop_cons]
      exact ⟨_, rfl, rfl⟩
  · intro i a b ha hb
    exact segmentsLoop_contiguous round64 _ 0 i a b ha hb
  · exact segmentsLoop_strict round64_rounds _ 0 hval (le_refl _) hbudget
  · obtain ⟨last, h1, h2⟩ := segmentsLoop_getLast round64 _ 0 hne
    refine ⟨last, h1, ?_⟩
    have hrun := abs_le.1 (runningSum_error round64_rounds
      (calculateProbabilities round64 sortSlice T collator) 0
      (fun p hp => le_of_lt (lt_trans (by norm_num) (hval p hp))) (le_refl _) hbudget)
    rw [h2, abs_le]
    constructor <;> linarith

/-- Witness for the amended C5 on the text "BAAB". -/
theorem getSegments_partition_witness :
    "BAAB" ≠ "" ∧ "BAAB".length < 2 ^ 51 ∧
    getSegments round64 (calculateProbabilities round64 stableSort "BAAB" codePointCompare)
      ≠ [] ∧
    (∃ first,
      (getSegments round64 (calculateProbabilities round64 stableSort "BAAB"
        codePointCompare)).head? = some first ∧ first.bottom = 0) ∧
    (∀ (i : ℕ) (a b : Boundary),
      (getSegments round64 (calculateProbabilities round64 stableSort "BAAB"
        codePointCompare))[i]? = some a →
      (getSegments round64 (calculateProbabilities round64 stableSort "BAAB"
        codePointCompare))[i + 1]? = some b →
      a.top = b.bottom) ∧
    (∀ s ∈ getSegments round64 (calculateProbabilities round64 stableSort "BAAB"
        codePointCompare), s.bottom < s.top) ∧
    (∃ last,
      (getSegments round64 (calculateProbabilities round64 stableSort "BAAB"
        codePointCompare)).getLast? = some last ∧
      |last.top - 1| ≤ 3 * ("BAAB".length : ℚ) / 2 ^ 53) :=
  ⟨by decide, by decide,
    getSegments_partition stableSort stableSort_permutes "BAAB" codePointCompare (by decide)
      (by decide)⟩

/-- Claim C6.  For every list of probabilities `getSegments` returns a list of
the same length whose `i`-th segment carries the symbol of the `i`-th
probability, has bottom equal to the sum of the values before position `i`
(`0` for `i = 0`), added one by one in the code's arithmetic, and top equal to
that bottom plus the `i`-th value; the output order is the input order.  In
exact arithmetic the bottom is the sum of the values before position `i`. -/
theorem getSegments_cumulative (fl : ℚ → ℚ) (probs : List Probability) :
    ((getSegments fl probs).length = probs.length ∧
      ∀ (i : ℕ) (p : Probability), probs[i]? = some p →
        (getSegments fl probs)[i]?
          = some ⟨p.symbol, runningSum fl (probs.take i) 0,
              fl (p.value + runningSum fl (probs.take i) 0)⟩) ∧
    ((getSegments exact probs).length = probs.length ∧
      ∀ (i : ℕ) (p : Probability), probs[i]? = some p →
        (getSegments exact probs)[i]?
          = some ⟨p.symbol, ((probs.take i).map Probability.value).sum,
              ((probs.take i).map Probability.value).sum + p.value⟩) := by
  refine ⟨⟨segmentsLoop_length fl probs 0, fun i p h => segmentsLoop_getElem fl probs 0 i p h⟩,
    segmentsLoop_length exact probs 0, ?_⟩
  intro i p h
  have := segmentsLoop_getElem exact probs 0 i p h
  rw [runningSum_exact, zero_add] at this
  rw [getSegments, this]
  simp only [exact, add_comm]

/-- Witness for C6: the second segment of the table of `[A: 2/3, B: 1/3]`
in binary64. -/
theorem getSegments_cumulative_witness :
    (getSegments round64 [⟨"A", 2 / 3⟩, ⟨"B", 1 / 3⟩])[1]?
      = some ⟨"B", runningSum round64 (([⟨"A", 2 / 3⟩, ⟨"B", 1 / 3⟩] : List Probability).take 1) 0,
          round64 (1 / 3
            + runningSum round64 (([⟨"A", 2 / 3⟩, ⟨"B", 1 / 3⟩] : List Probability).take 1) 0)⟩ :=
  (getSegments_cumulative round64 [⟨"A", 2 / 3⟩, ⟨"B", 1 / 3⟩]).1.2 1 ⟨"B", 1 / 3⟩ rfl

/-- Claim C7 (canonical emission order).  The symbols of
`calculateProbabilities T order` are the distinct code points of the sorted
code-point sequence in order of first appearance; and when the comparator is a
strict total order that never reports two distinct symbols equal and the sort
leaves no element before a smaller one, every entry compares strictly less
than the entry after it. -/
theorem calculateProbabilities_canonical_order (fl : ℚ → ℚ)
    (sortSlice : (Char → Char → Bool) → List Char → List Char)
    (T : String) (collator : String → String → Int) :
    (calculateProbabilities fl sortSlice T collator).map Probability.symbol
        = (firstAppearances (sortSlice (lessBy collator) T.data)).map String.singleton ∧
      (StrictTotal (lessBy collator) → SortsSlice sortSlice (lessBy collator) →
        ∀ (i : ℕ) (p q : Probability),
          (calculateProbabilities fl sortSlice T collator)[i]? = some p →
          (calculateProbabilities fl sortSlice T collator)[i + 1]? = some q →
          collator p.symbol q.symbol < 0) := by
  constructor
  · rw [calculateProbabilities_eq, List.map_map]
    rfl
  · intro htot hsort i p q hp hq
    have hpw := firstAppearances_increasing _ htot _ (hsort T.data)
    have hpw2 : (calculateProbabilities fl sortSlice T collator).Pairwise
        (fun a b => collator a.symbol b.symbol < 0) := by
      rw [calculateProbabilities_eq, List.pairwise_map]
      refine hpw.imp ?_
      intro a b hab
      simpa [lessBy, entryOf] using hab
    obtain ⟨hi, rfl⟩ := List.getElem?_eq_some.1 hp
    obtain ⟨hj, rfl⟩ := List.getElem?_eq_some.1 hq
    exact List.pairwise_iff_getElem.1 hpw2 i (i + 1) hi hj (Nat.lt_succ_self i)

/-- Witness for C7: in the binary64 model of "BAAB" the entry of `A` comes
first and compares less than the entry of `B`. -/
theorem calculateProbabilities_canonical_order_witness :
    codePointCompare (⟨"A", 1 / 2⟩ : Probability).symbol (⟨"B", 1 / 2⟩ : Probability).symbol < 0 :=
  (calculateProbabilities_canonical_order round64 stableSort "BAAB" codePointCompare).2
    codePointCompare_strictTotal (stableSort_sorts _ codePointCompare_strictTotal)
    0 ⟨"A", 1 / 2⟩ ⟨"B", 1 / 2⟩ (by decide!) (by decide!)

/-- Claim C8 (independence of input order).  For every text `T`, every text
`T2` whose code points are a permutation of those of `T`, and every comparator
that is a strict total order distinguishing distinct symbols,
`calculateProbabilities` returns the same list on both (same symbols, order
and values), and so `getSegments` returns the same table. -/
theorem calculateProbabilities_input_order_independent (fl : ℚ → ℚ)
    (sortSlice : (Char → Char → Bool) → List Char → List Char) (hperm : PermutesSlice sortSlice)
    (T T2 : String) (collator : String → String → Int)
    (htot : StrictTotal (lessBy collator)) (hsort : SortsSlice sortSlice (lessBy collator))
    (hTT : T2.data.Perm T.data) :
    calculateProbabilities fl sortSlice T2 collator
        = calculateProbabilities fl sortSlice T collator ∧
      getSegments fl (calculateProbabilities fl sortSlice T2 collator)
        = getSegments fl (calculateProbabilities fl sortSlice T collator) := by
  have hs : sortSlice (lessBy collator) T2.data = sortSlice (lessBy collator) T.data :=
    sorted_unique _ htot _ _ (((hperm _ _).trans hTT).trans (hperm _ _).symm)
      (hsort T2.data) (hsort T.data)
  have h : calculateProbabilities fl sortSlice T2 collator
      = calculateProbabilities fl sortSlice T collator := by
    rw [calculateProbabilities_eq, calculateProbabilities_eq, hs, hTT.length_eq]
  exact ⟨h, by rw [h]⟩

/-- Witness for C8: "ABA" and "AAB" in binary64. -/
theorem calculateProbabilities_input_order_independent_witness :
    calculateProbabilities round64 stableSort "ABA" codePointCompare
        = calculateProbabilities round64 stableSort "AAB" codePointCompare ∧
      getSegments round64 (calculateProbabilities round64 stableSort "ABA" codePointCompare)
        = getSegments round64 (calculateProbabilities round64 stableSort "AAB" codePointCompare) :=
  calculateProbabilities_input_order_independent round64 stableSort stableSort_permutes
    "AAB" "ABA" codePointCompare codePointCompare_strictTotal
    (stableSort_sorts _ codePointCompare_strictTotal) (by decide)

/-- Claim C9.  For every table and every non-empty text whose symbols all occur
in the table, `encodeString` returns a history with one entry per code point,
in input order: the entry at position `i` is `(c, bot + (top - bot) * segBot,
bot + (top - bot) * segTop)`, each operation in the code's arithmetic, where
`c` is the `i`-th code point, `(segBot, segTop) = findBoundary table c` and
`(bot, top)` is the interval of the entry before it, `(0, 1)` for `i = 0` (the
list `(0,1) :: hist` read at position `i`); the encoded value is the bottom of
the last entry. -/
theorem encodeString_history (fl : ℚ → ℚ) (table : List Boundary) (T : String)
    (hT : T ≠ "") (hcov : ∀ c ∈ T.data, ∃ e ∈ table, e.symbol = String.singleton c) :
    ∃ hist encoded, encodeString fl table T = .ok (hist, encoded) ∧
      hist.length = T.length ∧
      (∀ (i : ℕ) (c : Char) (prev : Boundary), T.data[i]? = some c →
        ((⟨"", 0, 1⟩ : Boundary) :: hist)[i]? = some prev →
        ∃ segBot segTop, findBoundary table (String.singleton c) = .ok (segBot, segTop) ∧
          hist[i]? = some ⟨String.singleton c,
            fl (prev.bottom + fl (fl (prev.top - prev.bottom) * segBot)),
            fl (prev.bottom + fl (fl (prev.top - prev.bottom) * segTop))⟩) ∧
      ∃ last, hist.getLast? = some last ∧ encoded = last.bottom := by
  obtain ⟨h, b, hok, hb, _, henc⟩ := encodeString_ok fl table T hT hcov
  refine ⟨h, b.bottom, henc, encodeLoop_length _ _ _ _ _ h hok, ?_, b, hb, rfl⟩
  intro i c prev hc hprev
  exact encodeLoop_index fl table T.data 0 1 h hok "" i c prev hc hprev

/-- Witness for C9: the text "AAB" on the table `[A: (0, 2/3), B: (2/3, 1)]`
in binary64. -/
theorem encodeString_history_witness :
    ∃ hist encoded,
      encodeString round64 [⟨"A", 0, 2 / 3⟩, ⟨"B", 2 / 3, 1⟩] "AAB" = .ok (hist, encoded) ∧
      hist.length = "AAB".length ∧
      (∀ (i : ℕ) (c : Char) (prev : Boundary), "AAB".data[i]? = some c →
        ((⟨"", 0, 1⟩ : Boundary) :: hist)[i]? = some prev →
        ∃ segBot segTop,
          findBoundary [⟨"A", 0, 2 / 3⟩, ⟨"B", 2 / 3, 1⟩] (String.singleton c)
            = .ok (segBot, segTop) ∧
          hist[i]? = some ⟨String.singleton c,
            round64 (prev.bottom + round64 (round64 (prev.top - prev.bottom) * segBot)),
            round64 (prev.bottom + round64 (round64 (prev.top - prev.bottom) * segTop))⟩) ∧
      ∃ last, hist.getLast? = some last ∧ encoded = last.bottom :=
  encodeString_history round64 [⟨"A", 0, 2 / 3⟩, ⟨"B", 2 / 3, 1⟩] "AAB" (by decide)
    (by decide!)

/-- Counterexample to C10, in binary64.  On the text of nine `A` the top of
the second history interval exceeds the top of the first, so tops are not
non-increasing; on the text "ABCDEFGHIJKLMNOP" the last history interval has
`bottom = top`; on the text of 64 `B` followed by 64 `A` the encoded value is
`1`, not below `1`. -/
theorem encodeString_order_lost_by_rounding :
    (encodeString round64
        (getSegments round64 (calculateProbabilities round64 stableSort "AAAAAAAAA"
          codePointCompare)) "AAAAAAAAA").map (fun r => (r.1[0]?, r.1[1]?))
      = .ok (some ⟨"A", 0, 4503599627370497 / 4503599627370496⟩,
          some ⟨"A", 0, 2251799813685249 / 2251799813685248⟩) ∧
    (encodeString round64
        (getSegments round64 (calculateProbabilities round64 stableSort "ABCDEFGHIJKLMNOP"
          codePointCompare)) "ABCDEFGHIJKLMNOP").map (fun r => r.1.getLast?)
      = .ok (some ⟨"P", 5124095576030431 / 1152921504606846976,
          5124095576030431 / 1152921504606846976⟩) ∧
    (encodeString round64
        (getSegments round64 (calculateProbabilities round64 stableSort
          (String.mk (List.replicate 64 'B' ++ List.replicate 64 'A')) codePointCompare))
        (String.mk (List.replicate 64 'B' ++ List.replicate 64 'A'))).map (fun r => r.2)
      = .ok 1 := by
  decide!

/-- Claim C10 as amended.  For every non-empty text with
`table = getSegments (calculateProbabilities T order)`, `encodeString table T`
returns an encoded value with `0 ≤ encoded`, and along the history, started at
`(0, 1)`, bottoms do not decrease and every interval has `bottom ≤ top`.  This
holds for every monotone idempotent rounding that fixes `0`, so in binary64. -/
theorem encodeString_nested {fl : ℚ → ℚ} {η : ℚ} (hR : Rounds fl η)
    (sortSlice : (Char → Char → Bool) → List Char → List Char) (hperm : PermutesSlice sortSlice)
    (T : String) (collator : String → String → Int) (hT : T ≠ "") :
    ∃ hist encoded,
      encodeString fl (getSegments fl (calculateProbabilities fl sortSlice T collator)) T
        = .ok (hist, encoded) ∧
      0 ≤ encoded ∧
      List.Chain (fun a b : Boundary => a.bottom ≤ b.bottom ∧ b.bottom ≤ b.top)
        ⟨"", 0, 1⟩ hist := by
  have hasc := table_ascending hR sortSlice hperm T collator
  obtain ⟨h, b, hok, hb, _, henc⟩ := encodeString_ok fl _ T hT
    (table_covers fl sortSlice hperm T collator)
  have hchain := encodeLoop_ascending hR _ hasc.2 T.data 0 1 h "" (by norm_num) hR.1 hok
  refine ⟨h, b.bottom, henc, ?_, hchain⟩
  have hall : ∀ x ∈ h, (0 : ℚ) ≤ x.bottom := by
    have hgen : ∀ (l : List Boundary) (a : Boundary), 0 ≤ a.bottom →
        List.Chain (fun a b : Boundary => a.bottom ≤ b.bottom ∧ b.bottom ≤ b.top) a l →
        ∀ x ∈ l, (0 : ℚ) ≤ x.bottom := by
      intro l
      induction l with
      | nil => simp
      | cons y ys ih =>
        intro a ha hc x hx
        rw [List.chain_cons] at hc
        rcases List.mem_cons.1 hx with hxy | hx2
        · rw [hxy]
          exact le_trans ha hc.1.1
        · exact ih y (le_trans ha hc.1.1) hc.2 x hx2
    exact hgen h ⟨"", 0, 1⟩ (le_refl _) hchain
  exact hall b (List.mem_of_mem_getLast? hb)

/-- Witness for the amended C10 on the text "AAB" in binary64. -/
theorem encodeString_nested_witness :
    "AAB" ≠ "" ∧
    ∃ hist encoded,
      encodeString round64
          (getSegments round64 (calculateProbabilities round64 stableSort "AAB" codePointCompare))
          "AAB" = .ok (hist, encoded) ∧
      0 ≤ encoded ∧
      List.Chain (fun a b : Boundary => a.bottom ≤ b.bottom ∧ b.bottom ≤ b.top)
        ⟨"", 0, 1⟩ hist :=
  ⟨by decide, encodeString_nested round64_rounds stableSort stableSort_permutes "AAB"
    codePointCompare (by decide)⟩

/-- Claim C11.  Whenever `decodeString` returns, its output is the
concatenation of the symbols of a sequence of selected candidate ranges in
which every element is built from the first segment, in table order, whose
candidate range `[lo + (hi - lo) * bottom, lo + (hi - lo) * top)` over the
previous element's interval `(lo, hi)` contains the value (lower bound
inclusive, upper bound exclusive, each operation in the code's arithmetic);
the interval before the first element is `(0, 1)`. -/
theorem decodeString_selects_first_match (fl : ℚ → ℚ) (table : List Boundary) (v : ℚ)
    (n : Int) (fuel : ℕ) (out : String) (h : decodeString fl fuel v n table = some out) :
    ∃ sel : List Boundary,
      out = sel.foldl (fun acc b => acc ++ b.symbol) "" ∧
      List.Chain (fun prev cur : Boundary =>
          ∃ s, firstMatch fl v prev.bottom prev.top table = some s ∧
            cur = ⟨s.symbol, fl (prev.bottom + fl (fl (prev.top - prev.bottom) * s.bottom)),
              fl (prev.bottom + fl (fl (prev.top - prev.bottom) * s.top))⟩)
        ⟨"", 0, 1⟩ sel :=
  decodeLoop_trace fl v n table fuel "" 0 1 "" out h

/-- Witness for C11: decoding `1/3` to three symbols on the table
`[A: (0, 2/3), B: (2/3, 1)]` in binary64. -/
theorem decodeString_selects_first_match_witness :
    ∃ sel : List Boundary,
      "AAB" = sel.foldl (fun acc b => acc ++ b.symbol) "" ∧
      List.Chain (fun prev cur : Boundary =>
          ∃ s, firstMatch round64 (1 / 3) prev.bottom prev.top
              [⟨"A", 0, 2 / 3⟩, ⟨"B", 2 / 3, 1⟩] = some s ∧
            cur = ⟨s.symbol,
              round64 (prev.bottom + round64 (round64 (prev.top - prev.bottom) * s.bottom)),
              round64 (prev.bottom + round64 (round64 (prev.top - prev.bottom) * s.top))⟩)
        ⟨"", 0, 1⟩ sel :=
  decodeString_selects_first_match round64 [⟨"A", 0, 2 / 3⟩, ⟨"B", 2 / 3, 1⟩] (1 / 3) 3 3 "AAB"
    (by decide!)

/-- Claim C12.  For every table and non-empty text, `encodeString` fails
exactly when some code point of the text has no entry with that symbol in the
table, and the failure is the "No boundary found" panic; `findBoundary` fails
exactly when no entry of the table has the symbol, and otherwise returns the
bounds of the first entry with that symbol. -/
theorem encodeString_fails_iff_symbol_missing (fl : ℚ → ℚ) (table : List Boundary)
    (T : String) :
    (T ≠ "" → ∀ e : Panic, encodeString fl table T = .error e
      ↔ e = Panic.noBoundaryFound ∧
        ∃ c ∈ T.data, ∀ x ∈ table, x.symbol ≠ String.singleton c) ∧
    (∀ (s : String) (e : Panic), findBoundary table s = .error e
      ↔ e = Panic.noBoundaryFound ∧ ∀ x ∈ table, x.symbol ≠ s) ∧
    (∀ (s : String) (x : Boundary), table.find? (fun y => decide (y.symbol = s)) = some x →
      findBoundary table s = .ok (x.bottom, x.top)) := by
  refine ⟨?_, ?_, ?_⟩
  · intro hT e
    rw [encodeString_error_iff fl table T hT, encodeLoop_error_iff]
  · intro s e
    exact findBoundary_error_iff table s e
  · intro s x hx
    rw [findBoundary_eq_find, hx]

/-- Witness for C12: the text "AC" on a table without `C`, in binary64. -/
theorem encodeString_fails_iff_symbol_missing_witness :
    encodeString round64 [⟨"A", 0, 2 / 3⟩, ⟨"B", 2 / 3, 1⟩] "AC" = .error Panic.noBoundaryFound
      ↔ Panic.noBoundaryFound = Panic.noBoundaryFound ∧
        ∃ c ∈ "AC".data, ∀ x ∈ [(⟨"A", 0, 2 / 3⟩ : Boundary), ⟨"B", 2 / 3, 1⟩],
          x.symbol ≠ String.singleton c :=
  (encodeString_fails_iff_symbol_missing round64 [⟨"A", 0, 2 / 3⟩, ⟨"B", 2 / 3, 1⟩] "AC").1
    (by decide) Panic.noBoundaryFound

/-- Counterexample to C13: on the empty text `calculateProbabilities` returns
the empty list; it does not fail. -/
theorem calculateProbabilities_empty_text_returns_nil :
    calculateProbabilities round64 stableSort "" codePointCompare = [] := by
  decide!

/-- Claim C13 as amended.  `calculateProbabilities` applied to the empty text
returns the empty list, for every comparator; it has no failure path. -/
theorem calculateProbabilities_empty_text (fl : ℚ → ℚ)
    (sortSlice : (Char → Char → Bool) → List Char → List Char) (hperm : PermutesSlice sortSlice)
    (collator : String → String → Int) :
    calculateProbabilities fl sortSlice "" collator = [] := by
  rw [calculateProbabilities_eq]
  have h : sortSlice (lessBy collator) ("" : String).data = [] :=
    List.perm_nil.1 (hperm (lessBy collator) [])
  rw [h]
  rfl

/-- Witness for the amended C13 with the insertion sort, in binary64. -/
theorem calculateProbabilities_empty_text_witness :
    PermutesSlice stableSort ∧
      calculateProbabilities round64 stableSort "" codePointCompare = [] :=
  ⟨stableSort_permutes,
    calculateProbabilities_empty_text round64 stableSort stableSort_permutes _⟩

/-- Counterexample to C14: `getSegments` returns a table for the single entry
`("X", 0.5)`, whose values do not sum to `1`, and for the empty list. -/
theorem getSegments_accepts_any_list :
    getSegments round64 [⟨"X", 1 / 2⟩] = [⟨"X", 0, 1 / 2⟩] ∧ getSegments round64 [] = [] := by
  decide!

/-- Claim C14 as amended.  `getSegments` does not validate its input: for the
empty list it returns the empty table, and for every list it returns one
segment per entry, the top of the last segment being the sum of the values
(added one by one in the code's arithmetic), whatever that sum is. -/
theorem getSegments_never_fails (fl : ℚ → ℚ) (probs : List Probability) :
    getSegments fl [] = [] ∧ (getSegments fl probs).length = probs.length ∧
      (probs ≠ [] → ∃ last, (getSegments fl probs).getLast? = some last ∧
        last.top = runningSum fl probs 0) ∧
      (probs ≠ [] → ∃ last, (getSegments exact probs).getLast? = some last ∧
        last.top = (probs.map Probability.value).sum) := by
  refine ⟨rfl, segmentsLoop_length fl probs 0, ?_, ?_⟩
  · intro hne
    exact segmentsLoop_getLast fl probs 0 hne
  · intro hne
    obtain ⟨last, h1, h2⟩ := segmentsLoop_getLast exact probs 0 hne
    exact ⟨last, h1, by rw [h2, runningSum_exact, zero_add]⟩

/-- Witness for the amended C14 on the single entry `("X", 0.5)`, in binary64. -/
theorem getSegments_never_fails_witness :
    ∃ last, (getSegments round64 [⟨"X", 1 / 2⟩]).getLast? = some last ∧
      last.top = runningSum round64 [⟨"X", 1 / 2⟩] 0 :=
  (getSegments_never_fails round64 [⟨"X", 1 / 2⟩]).2.2.1 (by decide)

/-- Claim C15, the code at the failing input: with the value `1`, target
length `1` and the table `[X: (0, 1)]` no candidate range contains the value,
and `decodeString` does not return within any number of passes, in binary64
as in exact arithmetic. -/
theorem decodeString_spins_without_match (fuel : ℕ) :
    decodeString round64 fuel 1 1 [⟨"X", 0, 1⟩] = none ∧
      decodeString exact fuel 1 1 [⟨"X", 0, 1⟩] = none :=
  ⟨decodeLoop_stuck round64 1 1 [⟨"X", 0, 1⟩] "" 0 1 (by decide) (by decide!) fuel,
    decodeLoop_stuck exact 1 1 [⟨"X", 0, 1⟩] "" 0 1 (by decide) (by decide!) fuel⟩

/-- Counterexample to C16, in binary64: the history of "AAB" has the second
top `2001599834386887 / 2⁵²` and the final bottom `667199944795629 / 2⁵¹`.
To six decimal places these are `0.444444` and `0.296296`, under rounding to
nearest and under truncation, not the claimed `0.444445` and `0.296297`;
rounding up would give those two but turns the claimed `0.333333` of `B`
into `0.333334`. -/
theorem scenario_AAB_claimed_decimals_wrong :
    encodeString round64
        (getSegments round64 (calculateProbabilities round64 stableSort "AAB" codePointCompare))
        "AAB"
      = .ok ([⟨"A", 0, 6004799503160661 / 9007199254740992⟩,
              ⟨"A", 0, 2001599834386887 / 4503599627370496⟩,
              ⟨"B", 667199944795629 / 2251799813685248,
                2001599834386887 / 4503599627370496⟩],
             667199944795629 / 2251799813685248) ∧
      roundSix (2001599834386887 / 4503599627370496) ≠ 444445 / 1000000 ∧
      truncSix (2001599834386887 / 4503599627370496) ≠ 444445 / 1000000 ∧
      roundSix (667199944795629 / 2251799813685248) ≠ 296297 / 1000000 ∧
      truncSix (667199944795629 / 2251799813685248) ≠ 296297 / 1000000 ∧
      calculateProbabilities round64 stableSort "AAB" codePointCompare
        = [⟨"A", 6004799503160661 / 9007199254740992⟩,
           ⟨"B", 6004799503160661 / 18014398509481984⟩] ∧
      ceilSix (6004799503160661 / 18014398509481984) ≠ 333333 / 1000000 := by
  decide!

/-- Claim C16 as amended.  For the text "AAB" with `A` ordered before `B`, in
binary64 and with every value taken to six decimal places (rounded to the
nearest), the probabilities are `[A: 0.666667, B: 0.333333]`, the segments
`[A: (0, 0.666667), B: (0.666667, 1)]`, and `encodeString` yields the history
`A → (0, 0.666667)`, `A → (0, 0.444444)`, `B → (0.296296, 0.444444)` with
final value `0.296296`. -/
theorem scenario_AAB
    (sortSlice : (Char → Char → Bool) → List Char → List Char) (hperm : PermutesSlice sortSlice)
    (collator : String → String → Int) (hsort : SortsSlice sortSlice (lessBy collator))
    (hAB : collator "A" "B" < 0) :
    (calculateProbabilities round64 sortSlice "AAB" collator).map
        (fun p => (p.symbol, roundSix p.value))
      = [("A", 666667 / 1000000), ("B", 333333 / 1000000)] ∧
    (getSegments round64 (calculateProbabilities round64 sortSlice "AAB" collator)).map
        (fun s => (s.symbol, roundSix s.bottom, roundSix s.top))
      = [("A", 0, 666667 / 1000000), ("B", 666667 / 1000000, 1)] ∧
    (encodeString round64
        (getSegments round64 (calculateProbabilities round64 sortSlice "AAB" collator))
        "AAB").map
        (fun r => (r.1.map (fun s => (s.symbol, roundSix s.bottom, roundSix s.top)),
          roundSix r.2))
      = .ok ([("A", 0, 666667 / 1000000), ("A", 0, 444444 / 1000000),
              ("B", 296296 / 1000000, 444444 / 1000000)], 296296 / 1000000) := by
  have hless : lessBy collator 'A' 'B' = true := by
    simp only [lessBy, decide_eq_true_eq]
    exact hAB
  have hsorted : sortSlice (lessBy collator) ("AAB" : String).data = ['A', 'A', 'B'] :=
    sorted_AAB _ hless _ (hperm _ _) (hsort _)
  have hprobs : calculateProbabilities round64 sortSlice "AAB" collator
      = [⟨"A", 6004799503160661 / 9007199254740992⟩,
         ⟨"B", 6004799503160661 / 18014398509481984⟩] := by
    unfold calculateProbabilities
    simp only [hsorted]
    decide!
  rw [hprobs]
  refine ⟨?_, ?_, ?_⟩ <;> decide!

/-- Witness for the amended C16 with the insertion sort and the code-point
comparator. -/
theorem scenario_AAB_witness :
    codePointCompare "A" "B" < 0 ∧
    (calculateProbabilities round64 stableSort "AAB" codePointCompare).map
        (fun p => (p.symbol, roundSix p.value))
      = [("A", 666667 / 1000000), ("B", 333333 / 1000000)] ∧
    (getSegments round64 (calculateProbabilities round64 stableSort "AAB" codePointCompare)).map
        (fun s => (s.symbol, roundSix s.bottom, roundSix s.top))
      = [("A", 0, 666667 / 1000000), ("B", 666667 / 1000000, 1)] ∧
    (encodeString round64
        (getSegments round64 (calculateProbabilities round64 stableSort "AAB" codePointCompare))
        "AAB").map
        (fun r => (r.1.map (fun s => (s.symbol, roundSix s.bottom, roundSix s.top)),
          roundSix r.2))
      = .ok ([("A", 0, 666667 / 1000000), ("A", 0, 444444 / 1000000),
              ("B", 296296 / 1000000, 444444 / 1000000)], 296296 / 1000000) :=
  ⟨by decide, scenario_AAB stableSort stableSort_permutes codePointCompare
    (stableSort_sorts _ codePointCompare_strictTotal) (by decide)⟩

end ArithmeticCoding
